import Mathlib

/-!
# Cabana binary view: bit grid layout and pointer gestures

A shallow embedding of `tools/cabana/binaryview.cc`.

* `BinaryViewModel` owns the grid of cells (`items`), nine per payload byte:
  eight bit cells and one hex cell.  `refresh` rebuilds it from the message
  definition, `updateState` overlays the last received payload.
* `BinaryView` owns the gesture state (anchor, resize target, hovered signal,
  selection) and turns pointer events into edit requests.

Conventions of the embedding.

* A `const cabana::Signal *` is an address (`SigPtr`); the object behind it is
  read through `Env.sig`.
* C++ `int` values are `Int`; signed overflow is undefined behaviour in the
  source and is not modelled.  `/` and `%` on `int` truncate toward zero
  (`Int.tdiv`, `Int.tmod`).
* Functions the translation unit calls but does not define (`getSignalRange`,
  `bigEndianBitIndex`, `toHex`, the floating point highlight curve) are fields
  of `Env`; `std::sort` is a `StdSort`, any function meeting the contract of
  the standard library.  Theorems quantify over them.
* Qt notifications that carry no state of the model (`dataChanged`,
  `beginResetModel`, painting colours of the delegate) are left out.
-/

namespace Cabana

/-! ## Data model -/

/-- Address of a `cabana::Signal` object. -/
abbrev SigPtr := Nat

/-- The fields of `cabana::Signal` that the binary view reads. -/
structure Signal where
  start_bit : Int
  size : Int
  is_little_endian : Bool
  is_signed : Bool
  msb : Int
  lsb : Int
deriving DecidableEq, Repr

/-- The fields of `cabana::Msg` that the binary view reads: the declared byte
length and the signal pointers returned by `getSignals()`. -/
structure Msg where
  size : Nat
  getSignals : List SigPtr
deriving DecidableEq, Repr

/-- A colour with its alpha channel (`QColor`). -/
structure QColor where
  red : Nat
  green : Nat
  blue : Nat
  alpha : Nat
deriving DecidableEq, Repr

/-- The fields of `CanData` read by `updateState` and `refresh`: payload bytes,
sample count, per-bit toggle counters, per-byte colours. -/
structure CanData where
  dat : List Nat
  count : Nat
  bit_change_counts : List (List Nat)
  colors : List QColor
deriving DecidableEq, Repr

/-- One cell of the grid, `BinaryViewModel::Item`.  Modelled from the spec: the
struct is declared in `binaryview.h`; its fields are the ones the source
uses, and a fresh cell has no signal coverage, no boundary flag and is not
valid. -/
structure Item where
  bg_color : QColor := ⟨102, 86, 169, 255⟩
  is_msb : Bool := false
  is_lsb : Bool := false
  val : String := ""
  sigs : List SigPtr := []
  valid : Bool := false
deriving DecidableEq, Repr

instance : Inhabited Item := ⟨{}⟩

/-- Modelled from the spec: `BinaryViewModel::column_count` is declared in
`binaryview.h`; the grid has 8 bit columns and 1 hex column. -/
def column_count : Nat := 9

/-- State of `BinaryViewModel`. -/
structure BinaryViewModel where
  items : List Item := []
  row_count : Nat := 0
deriving DecidableEq, Repr

/-- What `binaryview.cc` calls without defining it. `sig` dereferences a signal
pointer; `getSignalRange` and `bigEndianBitIndex` are the helpers of the DBC
layer; `toHex` formats a byte; `alpha has_sigs n count` stands for the
floating point expression
`clamp(offset + log2(1 + factor * n / count) * scaler, min_f, max_f)`. -/
structure Env where
  sig : SigPtr → Signal
  getSignalRange : Signal → Int × Int
  bigEndianBitIndex : Int → Int
  toHex : Nat → String
  alpha : Bool → Nat → Nat → Nat

/-- Asymmetry of a comparator. -/
def CompAsymm (comp : SigPtr → SigPtr → Bool) : Prop :=
  ∀ a b, comp a b = true → comp b a = false

/-- Transitivity of "not after", the other half of a strict weak ordering. -/
def CompNegTrans (comp : SigPtr → SigPtr → Bool) : Prop :=
  ∀ a b c, comp b a = false → comp c b = false → comp c a = false

/-- Contract of `std::sort(first, last, comp)`: the result is a rearrangement
of the input and, for a strict weak ordering `comp`, no element is ordered
before one that precedes it.  The order of equivalent elements is not
specified. -/
structure StdSort where
  sort : (SigPtr → SigPtr → Bool) → List SigPtr → List SigPtr
  perm : ∀ comp l, (sort comp l).Perm l
  sorted : ∀ comp l, CompAsymm comp → CompNegTrans comp →
    (sort comp l).Pairwise (fun a b => comp b a = false)

/-! ## BinaryViewModel -/

/-- The cell at a flat index, a fresh cell outside the vector. -/
def cellAt (items : List Item) (k : Nat) : Item := items.getD k default

/-- The cell index `column_count * (bit_index / 8) + bit_index % 8` computed in
the inner loop of `refresh` for position `j` of the range of signal `s`. -/
def cellIndex (env : Env) (s : Signal) (j : Int) : Int :=
  let bit_index := if s.is_little_endian then env.bigEndianBitIndex j else j
  (column_count : Int) * bit_index.tdiv 8 + bit_index.tmod 8

/-- Negation of the guard `idx >= items.size()`.  The size of the vector
`items` is unsigned, so a negative `idx` is converted to a huge value and is
out of bounds too. -/
def InBounds (len : Nat) (idx : Int) : Prop := 0 ≤ idx ∧ idx < (len : Int)

instance (len : Nat) (idx : Int) : Decidable (InBounds len idx) := by
  unfold InBounds; infer_instance

/-- The comparator of the `std::sort` call in `refresh`:
`l->size > r->size`. -/
def sizeGreater (env : Env) (l r : SigPtr) : Bool :=
  decide ((env.sig l).size > (env.sig r).size)

/-- The write `sig->is_little_endian ? items[idx].is_lsb = true :
items[idx].is_msb = true` at `j == start`. -/
def markStart (s : Signal) (item : Item) : Item :=
  if s.is_little_endian then { item with is_lsb := true } else { item with is_msb := true }

/-- The write `sig->is_little_endian ? items[idx].is_msb = true :
items[idx].is_lsb = true` at `j == end`. -/
def markEnd (s : Signal) (item : Item) : Item :=
  if s.is_little_endian then { item with is_msb := true } else { item with is_lsb := true }

/-- The statements `sigs.push_back(sig)` and, when the list has more than one
element, `std::sort(sigs.begin(), sigs.end(), comp)`. -/
def pushSorted (env : Env) (S : StdSort) (p : SigPtr) (item : Item) : Item :=
  let sigs := item.sigs ++ [p]
  { item with sigs := if sigs.length > 1 then S.sort (sizeGreater env) sigs else sigs }

/-- The writes of one iteration of the inner loop of `refresh` to the cell
`items[idx]`: boundary flags at `j == start` and `j == end`, then the
signal is added to the list of the cell. -/
def placeInCell (env : Env) (S : StdSort) (p : SigPtr) (start stop j : Int)
    (item : Item) : Item :=
  let item1 := if j = start then markStart (env.sig p) item else item
  let item2 := if j = stop then markEnd (env.sig p) item1 else item1
  pushSorted env S p item2

/-- The inner loop `for (int j = start; j <= end; ++j)` of `refresh`, entered
at `j` with `n` iterations left; an out-of-bounds cell index leaves the loop
(`break`). -/
def layoutLoop (env : Env) (S : StdSort) (p : SigPtr) (start stop : Int) :
    Nat → Int → List Item → List Item
  | 0, _, items => items
  | n + 1, j, items =>
    let idx := cellIndex env (env.sig p) j
    if InBounds items.length idx then
      layoutLoop env S p start stop n (j + 1)
        (items.modify (placeInCell env S p start stop j) idx.toNat)
    else items

/-- The body of `for (auto sig : dbc_msg->getSignals())` in `refresh`. -/
def layoutSignal (env : Env) (S : StdSort) (items : List Item) (p : SigPtr) : List Item :=
  let range := env.getSignalRange (env.sig p)
  layoutLoop env S p range.1 range.2 (range.2 - range.1 + 1).toNat range.1 items

/-- The call `items.resize(n)` of `std::vector`: keeps the first `n` cells and
appends fresh ones up to length `n`. -/
def resize (items : List Item) (n : Nat) : List Item :=
  items.take n ++ List.replicate (n - items.length) default

/-- The call `BinaryViewModel::updateItem(row, col, val, color)`. -/
def updateItem (items : List Item) (row col : Nat) (val : String) (color : QColor) :
    List Item :=
  items.modify
    (fun item =>
      if item.val ≠ val ∨ item.bg_color ≠ color then
        { item with val := val, bg_color := color }
      else item)
    (row * column_count + col)

/-- One iteration of the loop over the bits `j` of byte `i` in `updateState`. -/
def updateBit (env : Env) (last : CanData) (i : Nat) (items : List Item) (j : Nat) :
    List Item :=
  let item := cellAt items (i * column_count + j)
  let val := if ((last.dat.getD i 0) >>> (7 - j)) % 2 ≠ 0 then "1" else "0"
  let n := (last.bit_change_counts.getD i []).getD (7 - j) 0
  let color := { item.bg_color with alpha := env.alpha (!item.sigs.isEmpty) n last.count }
  updateItem items i j val color

/-- One iteration of the loop over the bytes `i` in `updateState`. -/
def updateByte (env : Env) (last : CanData) (items : List Item) (i : Nat) : List Item :=
  let items1 := (List.range 8).foldl (updateBit env last i) items
  updateItem items1 i 8 (env.toHex (last.dat.getD i 0)) (last.colors.getD i (default : Item).bg_color)

/-- The method `BinaryViewModel::updateState`, for the last message `last` of
the active id. -/
def updateState (env : Env) (last : CanData) (m : BinaryViewModel) : BinaryViewModel :=
  let m1 : BinaryViewModel :=
    if last.dat.length > m.row_count then
      { row_count := last.dat.length,
        items := resize m.items (last.dat.length * column_count) }
    else m
  { m1 with items := (List.range last.dat.length).foldl (updateByte env last) m1.items }

/-- The loop `for (i = 0; i < valid_rows * column_count; ++i) items[i].valid = true`. -/
def markValid (items : List Item) (n : Nat) : List Item :=
  (List.range n).foldl (fun its i => its.modify (fun it => { it with valid := true }) i) items

/-- The method `BinaryViewModel::refresh`; `dbc_msg` is the result of
`dbc()->msg(msg_id)` and `last` the one of `can->lastMessage(msg_id)`.  The
previous cells are cleared, so the result does not depend on the old state. -/
def refresh (env : Env) (S : StdSort) (dbc_msg : Option Msg) (last : CanData) :
    BinaryViewModel :=
  let m1 : BinaryViewModel :=
    match dbc_msg with
    | some msg =>
      { row_count := msg.size,
        items := msg.getSignals.foldl (layoutSignal env S)
          (resize [] (msg.size * column_count)) }
    | none =>
      { row_count := last.dat.length,
        items := resize [] (last.dat.length * column_count) }
  let valid_rows := min last.dat.length m1.row_count
  let m2 : BinaryViewModel :=
    { m1 with items := markValid m1.items (valid_rows * column_count) }
  updateState env last m2

/-! ## BinaryView -/

/-- A `QModelIndex` of the grid: row and column.  The default constructed
index is `(-1, -1)`. -/
structure QModelIndex where
  row : Int
  column : Int
deriving DecidableEq, Repr

/-- The default constructed `QModelIndex()`. -/
def QModelIndex.none : QModelIndex := ⟨-1, -1⟩

/-- The test `QModelIndex::isValid` for an index of this model. -/
def QModelIndex.isValid (i : QModelIndex) : Bool := decide (0 ≤ i.row) && decide (0 ≤ i.column)

/-- The comparison `QModelIndex::operator<` on indexes of one model: by row,
then by column.  Two indexes of the same cell carry the same internal
pointer, so the further tie-breaks of Qt do not decide. -/
def QModelIndex.lt (a b : QModelIndex) : Bool :=
  decide (a.row < b.row) || (decide (a.row = b.row) && decide (a.column < b.column))

/-- The function `get_bit_index(index, little_endian)`. -/
def get_bit_index (index : QModelIndex) (little_endian : Bool) : Int :=
  index.row * 8 + (if little_endian then 7 - index.column else index.column)

/-- Modelled from the spec: `BinaryViewModel::bitIndex(bit, is_lb)` is declared
in `binaryview.h`; it is the index of row `bit / 8` and column
`is_lb ? 7 - bit % 8 : bit % 8`. -/
def bitIndex (bit : Int) (is_lb : Bool) : QModelIndex :=
  ⟨bit.tdiv 8, if is_lb then 7 - bit.tmod 8 else bit.tmod 8⟩

/-- The values of `Settings::DragDirection`. -/
inductive DragDirection where
  | MsbFirst
  | LsbFirst
  | AlwaysLE
  | AlwaysBE
deriving DecidableEq, Repr

/-- The Qt signals `BinaryView` emits. -/
inductive Event where
  | signalClicked (sig : SigPtr)
  | signalHovered (sig : Option SigPtr)
  | addSignal (start_bit size : Int) (little_endian : Bool)
  | resizeSignal (sig : SigPtr) (start_bit size : Int)
deriving DecidableEq, Repr

/-- State of `BinaryView`: the model, the gesture fields, the selection of the
selection model and the drag direction of the settings. -/
structure BinaryView where
  model : BinaryViewModel
  anchor_index : QModelIndex := QModelIndex.none
  resize_sig : Option SigPtr := none
  hovered_sig : Option SigPtr := none
  selection : List QModelIndex := []
  drag_direction : DragDirection := DragDirection.MsbFirst
deriving DecidableEq, Repr

/-- The cell behind `index.internalPointer()`: `items[row * column_count +
column]` for an index of the grid, null otherwise. -/
def internalPointer (m : BinaryViewModel) (index : QModelIndex) : Option Item :=
  if index.isValid then m.items[index.row.toNat * column_count + index.column.toNat]?
  else none

/-- The reassignment `if (index.column() == 8) index = model->index(index.row(), 7)`
at the head of `getSelection`: the hex cell counts as the last bit cell of
its row. -/
def currentCell (index : QModelIndex) : QModelIndex :=
  if index.column = 8 then ⟨index.row, 7⟩ else index

/-- The method `BinaryView::getSelection`. -/
def getSelection (env : Env) (v : BinaryView) (index0 : QModelIndex) : Int × Int × Bool :=
  let index : QModelIndex := currentCell index0
  let is_lb : Bool :=
    match v.resize_sig with
    | some s => (env.sig s).is_little_endian
    | none =>
      match v.drag_direction with
      | DragDirection.MsbFirst => index.lt v.anchor_index
      | DragDirection.LsbFirst => !(index.lt v.anchor_index)
      | DragDirection.AlwaysLE => true
      | DragDirection.AlwaysBE => false
  let cur_bit_idx := get_bit_index index is_lb
  let anchor_bit_idx := get_bit_index v.anchor_index is_lb
  let start_bit := min cur_bit_idx anchor_bit_idx
  let end_bit := max cur_bit_idx anchor_bit_idx
  (start_bit, end_bit - start_bit + 1, is_lb)

/-- The cells `BinaryView::setSelection` selects for the index under the
cursor: `bitIndex(i, is_lb)` for `start <= i < start + size`. -/
def selectionCells (env : Env) (v : BinaryView) (index : QModelIndex) : List QModelIndex :=
  let sel := getSelection env v index
  (List.range sel.2.1.toNat).map (fun k => bitIndex (sel.1 + (k : Int)) sel.2.2)

/-- The method `BinaryView::setSelection`; `index` is the index under the
cursor. -/
def setSelection (env : Env) (v : BinaryView) (index : QModelIndex) : BinaryView :=
  if !v.anchor_index.isValid || !index.isValid then v
  else { v with selection := selectionCells env v index }

/-- The method `BinaryView::mousePressEvent`; `index` is `indexAt(event->pos())`. -/
def mousePressEvent (env : Env) (v : BinaryView) (index : QModelIndex) : BinaryView :=
  if index.isValid && decide (index.column ≠ 8) then
    let bit_idx := get_bit_index index true
    let sigs := ((internalPointer v.model index).getD default).sigs
    match sigs.find? (fun s => decide (bit_idx = (env.sig s).lsb) || decide (bit_idx = (env.sig s).msb)) with
    | some s =>
      { v with
        anchor_index :=
          bitIndex (if bit_idx = (env.sig s).lsb then (env.sig s).msb else (env.sig s).lsb) true,
        resize_sig := some s }
    | none => { v with anchor_index := index }
  else v

/-- The method `BinaryView::highlight`. -/
def highlight (v : BinaryView) (sig : Option SigPtr) : BinaryView × List Event :=
  if sig ≠ v.hovered_sig then ({ v with hovered_sig := sig }, [Event.signalHovered sig])
  else (v, [])

/-- The method `BinaryView::highlightPosition`; `index` is the index under
`pos`. -/
def highlightPosition (v : BinaryView) (index : QModelIndex) : BinaryView × List Event :=
  match internalPointer v.model index with
  | some item => highlight v item.sigs.getLast?
  | none => (v, [])

/-- The method `BinaryView::mouseMoveEvent`: the hover update, then the base
class handler, which calls `setSelection` while a button is held
(`dragging`). -/
def mouseMoveEvent (env : Env) (v : BinaryView) (index : QModelIndex) (dragging : Bool) :
    BinaryView × List Event :=
  let r := highlightPosition v index
  (if dragging then setSelection env r.1 index else r.1, r.2)

/-- The method `BinaryView::mouseReleaseEvent`; `release_index` is
`indexAt(event->pos())` and `v.selection` the selection the base class handler
leaves. -/
def mouseReleaseEvent (env : Env) (v : BinaryView) (release_index : QModelIndex) :
    BinaryView × List Event :=
  let events : List Event :=
    if release_index.isValid && v.anchor_index.isValid then
      if !v.selection.isEmpty then
        let sel := getSelection env v release_index
        match v.resize_sig with
        | some s => [Event.resizeSignal s sel.1 sel.2.1]
        | none => [Event.addSignal sel.1 sel.2.1 sel.2.2]
      else
        match internalPointer v.model v.anchor_index with
        | some item =>
          match item.sigs.getLast? with
          | some s => [Event.signalClicked s]
          | none => []
        | none => []
    else []
  ({ v with selection := [], anchor_index := QModelIndex.none, resize_sig := none }, events)

/-- The method `BinaryView::getOverlappingSignals`. -/
def getOverlappingSignals (v : BinaryView) : Finset SigPtr :=
  v.model.items.foldl
    (fun overlapping item =>
      if item.sigs.length > 1 then
        item.sigs.foldl (fun acc s => insert s acc) overlapping
      else overlapping)
    ∅

/-! ## A concrete environment -/

/-- Modelled from the spec: `bigEndianBitIndex` is defined in the DBC layer; it
is the byte-order flip of a linear bit index, the position in big-endian
numbering of the cell with little-endian number `j`
(`row * 8 + 7 - col` against `row * 8 + col`), over the 512 bits of the
longest payload (64 bytes); a number outside the numbering has no position,
which is `-1`. -/
def bigEndianBitIndex (j : Int) : Int :=
  if 0 ≤ j ∧ j < 512 then 8 * j.tdiv 8 + (7 - j.tmod 8) else -1

/-- Modelled from the spec: `getSignalRange` is defined in the DBC layer; the
inclusive range of `size` linear positions that starts at `start_bit` for a
little-endian signal and at the flipped start bit for a big-endian one. -/
def getSignalRange (s : Signal) : Int × Int :=
  let first := if s.is_little_endian then s.start_bit else bigEndianBitIndex s.start_bit
  (first, first + s.size - 1)

/-- Insertion of `a` into a list ordered by `comp`, after the elements that
are not ordered after it. -/
def insertSorted (comp : SigPtr → SigPtr → Bool) (a : SigPtr) : List SigPtr → List SigPtr
  | [] => [a]
  | b :: l => if comp a b then a :: b :: l else b :: insertSorted comp a l

/-- Insertion sort, one function that meets the contract of `std::sort`. -/
def insertionSort (comp : SigPtr → SigPtr → Bool) : List SigPtr → List SigPtr
  | [] => []
  | a :: l => insertSorted comp a (insertionSort comp l)

/-- Insertion sort as an instance of the contract of `std::sort`. -/
def insertionStdSort : StdSort where
  sort := insertionSort
  perm := by
    have hins : ∀ (comp : SigPtr → SigPtr → Bool) (a : SigPtr) (l : List SigPtr),
        (insertSorted comp a l).Perm (a :: l) := by
      intro comp a l
      induction l with
      | nil => exact List.Perm.refl _
      | cons b l ih =>
        simp only [insertSorted]
        split
        · exact List.Perm.refl _
        · exact (List.Perm.cons b ih).trans (List.Perm.swap a b l)
    intro comp l
    induction l with
    | nil => exact List.Perm.refl _
    | cons a l ih => exact (hins comp a _).trans (List.Perm.cons a ih)
  sorted := by
    intro comp l hasym hneg
    have hmem : ∀ (a x : SigPtr) (l : List SigPtr), x ∈ insertSorted comp a l → x = a ∨ x ∈ l := by
      intro a x l
      induction l with
      | nil => intro h; simpa [insertSorted] using h
      | cons b l ih =>
        simp only [insertSorted]
        split
        · intro h; simpa using h
        · intro h
          rcases List.mem_cons.mp h with h | h
          · exact Or.inr (h ▸ List.mem_cons_self _ _)
          · rcases ih h with h | h
            · exact Or.inl h
            · exact Or.inr (List.mem_cons_of_mem _ h)
    have hins : ∀ (a : SigPtr) (l : List SigPtr), l.Pairwise (fun x y => comp y x = false) →
        (insertSorted comp a l).Pairwise (fun x y => comp y x = false) := by
      intro a l
      induction l with
      | nil => intro _; simp [insertSorted]
      | cons b l ih =>
        intro h
        rw [List.pairwise_cons] at h
        simp only [insertSorted]
        split
        · rename_i hab
          refine List.pairwise_cons.mpr ⟨?_, List.pairwise_cons.mpr h⟩
          intro x hx
          rcases List.mem_cons.mp hx with hx | hx
          · rw [hx]; exact hasym a b hab
          · exact hneg a b x (hasym a b hab) (h.1 x hx)
        · rename_i hab
          refine List.pairwise_cons.mpr ⟨?_, ih h.2⟩
          intro x hx
          rcases hmem a x l hx with hx | hx
          · rw [hx]; simpa using hab
          · exact h.1 x hx
    induction l with
    | nil => simp [insertionSort]
    | cons a l ih => exact hins a _ ih

/-- Two hexadecimal digits of a byte. -/
def toHex (b : Nat) : String :=
  String.mk [Nat.digitChar (b / 16 % 16), Nat.digitChar (b % 16)]

/-- An integer stand-in for the highlight curve: the offset of a signal cell
plus the step of a bit that has toggled, capped at 255. -/
def sampleAlpha (has_sigs : Bool) (n _count : Nat) : Nat :=
  min 255 ((if has_sigs then 50 else 0) + (if n = 0 then 0 else 25))

/-- An environment whose signal objects are the entries of `store`, addressed
by position. -/
def storeEnv (store : List Signal) : Env where
  sig := fun p => store.getD p ⟨0, 0, true, false, 0, 0⟩
  getSignalRange := getSignalRange
  bigEndianBitIndex := bigEndianBitIndex
  toHex := toHex
  alpha := sampleAlpha

/-- A grid of 8 rows whose first cell carries signal 0 with its msb flag, as a
sample state for `updateState`. -/
def sampleGrid : BinaryViewModel :=
  { row_count := 8,
    items := { sigs := [0], is_msb := true } :: List.replicate 71 default }

/-- A payload of 10 zero bytes received once. -/
def samplePayload : CanData :=
  { dat := List.replicate 10 0, count := 1, bit_change_counts := [], colors := [] }

/-- A big-endian signal of 16 bits that starts at the msb of byte 0 (address 0)
and a little-endian signal on the low 4 bits of byte 0 (address 1). -/
def sampleStore : List Signal :=
  [⟨7, 16, false, false, 7, 8⟩, ⟨0, 4, true, false, 3, 0⟩]

/-- A definition of one byte with the two signals of `sampleStore`. -/
def sampleMsg : Msg := ⟨1, [0, 1]⟩

/-- A payload of 2 bytes received once. -/
def twoBytes : CanData :=
  { dat := [0xAB, 0xCD], count := 1, bit_change_counts := [], colors := [] }

/-- A view on the grid rebuilt for `sampleMsg`. -/
def sampleView : BinaryView :=
  { model := refresh (storeEnv sampleStore) insertionStdSort (some sampleMsg) twoBytes }

/-- The gesture state after a pointer-down at `index` and the pointer moves
`moves`, each the index under the cursor and whether a button is held. -/
def pressThenMove (env : Env) (v : BinaryView) (index : QModelIndex)
    (moves : List (QModelIndex × Bool)) : BinaryView :=
  moves.foldl (fun w mv => (mouseMoveEvent env w mv.1 mv.2).1) (mousePressEvent env v index)

/-- The signals listed in the cell behind `index`. -/
def sigsUnder (m : BinaryViewModel) (index : QModelIndex) : List SigPtr :=
  ((internalPointer m index).getD default).sigs

/-- The part of the gesture state a pointer move keeps: resize target `s`,
anchor `a`, and a selection only when the anchor is valid. -/
def Resizing (s : SigPtr) (a : QModelIndex) (w : BinaryView) : Prop :=
  w.resize_sig = some s ∧ w.anchor_index = a ∧ (w.selection ≠ [] → a.isValid = true)

/-- The grid rebuilt for `sampleMsg` with the anchor on the cell of row 0,
column 7, where both signals of `sampleStore` are listed, and no selection. -/
def clickView : BinaryView :=
  { sampleView with anchor_index := ⟨0, 7⟩ }

/-- Two big-endian signals that overlap on bits 8 to 15: 16 bits from the msb
of byte 0 (address 0) and the 8 bits of byte 1 (address 1). -/
def overlapStore : List Signal :=
  [⟨7, 16, false, false, 7, 8⟩, ⟨15, 8, false, false, 15, 8⟩]

/-- A view on the grid rebuilt for a definition of one byte with the two
signals of `overlapStore` and a last payload of two bytes. -/
def overlapView : BinaryView :=
  { model := refresh (storeEnv overlapStore) insertionStdSort (some ⟨1, [0, 1]⟩) twoBytes }

/-- Signal A on the low 4 bits of byte 0 (address 0) and signal B on the high
4 bits (address 1), both little-endian. -/
def nibbleStore : List Signal :=
  [⟨0, 4, true, false, 3, 0⟩, ⟨4, 4, true, false, 7, 4⟩]

/-- A definition of one byte with the two signals of `nibbleStore`. -/
def nibbleMsg : Msg := ⟨1, [0, 1]⟩

/-- Modelled from the spec: the contract of `getSignalRange`, which is defined
in the DBC layer: the inclusive range it returns spans `size` positions. -/
def SpansSize (env : Env) : Prop :=
  ∀ s : Signal, (env.getSignalRange s).2 = (env.getSignalRange s).1 + s.size - 1

/-- A little-endian signal of one bit at bit 10 (address 0) and a big-endian
signal of one bit at bit 5 (address 1). -/
def bitStore : List Signal :=
  [⟨10, 1, true, false, 10, 10⟩, ⟨5, 1, false, false, 5, 5⟩]

/-- The pressed bit is the lsb or the msb of signal `s`: the test
`bit_idx == s->lsb || bit_idx == s->msb` of `mousePressEvent`. -/
def BoundaryAt (env : Env) (bit : Int) (s : SigPtr) : Prop :=
  bit = (env.sig s).lsb ∨ bit = (env.sig s).msb

instance (env : Env) (bit : Int) (s : SigPtr) : Decidable (BoundaryAt env bit s) := by
  unfold BoundaryAt; infer_instance

/-- The boundary bit of `s` opposite to the pressed one:
`bit_idx == s->lsb ? s->msb : s->lsb`. -/
def oppositeBit (env : Env) (bit : Int) (s : SigPtr) : Int :=
  if bit = (env.sig s).lsb then (env.sig s).msb else (env.sig s).lsb

/-- Two little-endian signals that start at bit 0 of byte 0: 8 bits (address 0)
and 4 bits (address 1).  Bit 0 is the lsb of both. -/
def sharedStore : List Signal :=
  [⟨0, 8, true, false, 7, 0⟩, ⟨0, 4, true, false, 3, 0⟩]

/-- A view on the grid rebuilt for a definition of one byte with the two
signals of `sharedStore`. -/
def sharedView : BinaryView :=
  { model := refresh (storeEnv sharedStore) insertionStdSort (some ⟨1, [0, 1]⟩) twoBytes }

/-! ## The cells the layout of a signal reaches -/

/-- The positions of the range of `s` the inner loop of `refresh` lays out in
a vector of `len` cells: entered at `j` with `n` iterations left, it stops
at the first position whose cell index is out of bounds. -/
def laidBits (env : Env) (len : Nat) (s : Signal) : Nat → Int → List Int
  | 0, _ => []
  | n + 1, j =>
    if InBounds len (cellIndex env s j) then j :: laidBits env len s n (j + 1) else []

/-- Position `j` of the range of `s` is laid out in a vector of `len` cells:
it lies in the range and no position from the start of the range up to `j`
has an out-of-bounds cell index. -/
def Reaches (env : Env) (len : Nat) (s : Signal) (j : Int) : Prop :=
  (env.getSignalRange s).1 ≤ j ∧ j ≤ (env.getSignalRange s).2 ∧
    ∀ i, (env.getSignalRange s).1 ≤ i → i ≤ j → InBounds len (cellIndex env s i)

/-- Signal `p` is laid out in cell `k` of a vector of `len` cells. -/
def LaidAt (env : Env) (len : Nat) (p : SigPtr) (k : Nat) : Prop :=
  ∃ j, Reaches env len (env.sig p) j ∧ cellIndex env (env.sig p) j = (k : Int)

/-- Number of positions of the range of `p` laid out in cell `k`. -/
def laidCount (env : Env) (len : Nat) (p : SigPtr) (k : Nat) : Nat :=
  let range := env.getSignalRange (env.sig p)
  (laidBits env len (env.sig p) (range.2 - range.1 + 1).toNat range.1).countP
    (fun j => decide (cellIndex env (env.sig p) j = (k : Int)))

/-- The signal list of every cell is ordered by non-increasing size. -/
def CellsSorted (env : Env) (items : List Item) : Prop :=
  ∀ k, (cellAt items k).sigs.Pairwise (fun a b => (env.sig b).size ≤ (env.sig a).size)

/-- The function `bigEndianBitIndex` takes a non-negative value at most
once. -/
def FlipInjective (env : Env) : Prop :=
  ∀ a b, 0 ≤ env.bigEndianBitIndex a → env.bigEndianBitIndex a = env.bigEndianBitIndex b → a = b

/-- The structural part of a cell: signal list and boundary flags. -/
def core (it : Item) : List SigPtr × Bool × Bool := (it.sigs, it.is_msb, it.is_lsb)

/-- The vector `refresh` holds after the loop over the signals of `msg`. -/
def laidOut (env : Env) (S : StdSort) (msg : Msg) : List Item :=
  msg.getSignals.foldl (layoutSignal env S) (resize [] (msg.size * column_count))

/-- The states of a `BinaryViewModel`: the constructed one, and what `refresh`
and `updateState` leave, for any definitions and payloads. -/
inductive Reachable : BinaryViewModel → Prop
  | init : Reachable {}
  | refresh (env : Env) (S : StdSort) (dbc_msg : Option Msg) (last : CanData) :
      Reachable (refresh env S dbc_msg last)
  | updateState (env : Env) (last : CanData) (m : BinaryViewModel) :
      Reachable m → Reachable (updateState env last m)

/-- The flag a signal sets at the first position of its range: lsb for a
little-endian signal, msb for a big-endian one. -/
def startFlag (s : Signal) (it : Item) : Bool :=
  if s.is_little_endian then it.is_lsb else it.is_msb

/-- The flag a signal sets at the last position of its range. -/
def endFlag (s : Signal) (it : Item) : Bool :=
  if s.is_little_endian then it.is_msb else it.is_lsb

/-- Every boundary flag set in `a` is set in `b`. -/
def FlagsLe (a b : Item) : Prop :=
  (a.is_msb = true → b.is_msb = true) ∧ (a.is_lsb = true → b.is_lsb = true)

/-! ## Lemmas on cells -/

theorem cellAt_modify (f : Item → Item) (n : Nat) (l : List Item) (k : Nat) :
    cellAt (l.modify f n) k = if n = k ∧ k < l.length then f (cellAt l k) else cellAt l k := by
  unfold cellAt
  rw [List.getD_eq_getElem?_getD, List.getD_eq_getElem?_getD, List.getElem?_modify]
  by_cases hk : k < l.length
  · rw [List.getElem?_eq_getElem hk]
    by_cases hn : n = k <;> simp [hn, hk]
  · rw [List.getElem?_eq_none (by omega)]
    simp [hk]

theorem cellAt_of_length_le (l : List Item) (k : Nat) (h : l.length ≤ k) :
    cellAt l k = default := by
  unfold cellAt
  rw [List.getD_eq_getElem?_getD, List.getElem?_eq_none h]
  rfl

theorem cellAt_of_lt (l : List Item) (k : Nat) (h : k < l.length) :
    cellAt l k = l[k] := by
  unfold cellAt
  rw [List.getD_eq_getElem?_getD, List.getElem?_eq_getElem h]
  rfl

theorem cellAt_resize (l : List Item) (n k : Nat) :
    cellAt (resize l n) k = if k < n then cellAt l k else default := by
  unfold cellAt resize
  rw [List.getD_eq_getElem?_getD, List.getD_eq_getElem?_getD, List.getElem?_append]
  simp only [List.length_take, List.getElem?_take]
  by_cases hk : k < n
  · by_cases hl : k < l.length
    · simp [hk, hl]
    · have h1 : ¬ k < min n l.length := by omega
      simp only [h1, hk, if_false, if_true]
      rw [List.getElem?_eq_none (l := l) (by omega)]
      by_cases h2 : k - min n l.length < n - l.length
      · rw [List.getElem?_replicate]; simp [h2]
      · rw [List.getElem?_replicate]; simp [h2]
  · have h1 : ¬ k < min n l.length := by omega
    simp only [h1, hk, if_false]
    rw [List.getElem?_replicate]
    have h2 : ¬ k - min n l.length < n - l.length := by omega
    simp [h2]

theorem length_resize (l : List Item) (n : Nat) : (resize l n).length = n := by
  unfold resize
  simp only [List.length_append, List.length_take, List.length_replicate]
  omega

/-! ## Lemmas on the layout loop -/

theorem sizeGreater_asymm (env : Env) : CompAsymm (sizeGreater env) := by
  intro a b h
  simp only [sizeGreater, decide_eq_true_eq, decide_eq_false_iff_not] at *
  omega

theorem sizeGreater_negTrans (env : Env) : CompNegTrans (sizeGreater env) := by
  intro a b c h1 h2
  simp only [sizeGreater, decide_eq_false_iff_not] at *
  omega

theorem markStart_sigs (s : Signal) (it : Item) : (markStart s it).sigs = it.sigs := by
  unfold markStart; split <;> rfl

theorem markEnd_sigs (s : Signal) (it : Item) : (markEnd s it).sigs = it.sigs := by
  unfold markEnd; split <;> rfl

theorem placeInCell_sigs (env : Env) (S : StdSort) (p : SigPtr) (a b j : Int) (it : Item) :
    (placeInCell env S p a b j it).sigs =
      if (it.sigs ++ [p]).length > 1 then S.sort (sizeGreater env) (it.sigs ++ [p])
      else it.sigs ++ [p] := by
  have h : (if j = b then markEnd (env.sig p) (if j = a then markStart (env.sig p) it else it)
      else (if j = a then markStart (env.sig p) it else it)).sigs = it.sigs := by
    split
    · rw [markEnd_sigs]; split
      · rw [markStart_sigs]
      · rfl
    · split
      · rw [markStart_sigs]
      · rfl
  simp only [placeInCell, pushSorted, h]

theorem placeInCell_sigs_perm (env : Env) (S : StdSort) (p : SigPtr) (a b j : Int)
    (it : Item) : (placeInCell env S p a b j it).sigs.Perm (it.sigs ++ [p]) := by
  rw [placeInCell_sigs]
  split
  · exact S.perm _ _
  · exact List.Perm.refl _

theorem placeInCell_sorted (env : Env) (S : StdSort) (p : SigPtr) (a b j : Int) (it : Item) :
    (placeInCell env S p a b j it).sigs.Pairwise
      (fun x y => (env.sig y).size ≤ (env.sig x).size) := by
  rw [placeInCell_sigs]
  split
  · refine (S.sorted (sizeGreater env) _ (sizeGreater_asymm env)
      (sizeGreater_negTrans env)).imp ?_
    intro x y hxy
    simp only [sizeGreater, decide_eq_false_iff_not] at hxy
    omega
  · rename_i h
    have h0 : it.sigs = [] := by
      cases hs : it.sigs with
      | nil => rfl
      | cons x xs => rw [hs] at h; simp at h
    rw [h0]
    simp

theorem length_layoutLoop (env : Env) (S : StdSort) (p : SigPtr) (a b : Int) (n : Nat) :
    ∀ (j : Int) (items : List Item),
      (layoutLoop env S p a b n j items).length = items.length := by
  induction n with
  | zero => intro j items; rfl
  | succ n ih =>
    intro j items
    simp only [layoutLoop]
    split
    · rw [ih, List.length_modify]
    · rfl

theorem length_layoutSignal (env : Env) (S : StdSort) (items : List Item) (p : SigPtr) :
    (layoutSignal env S items p).length = items.length := by
  unfold layoutSignal
  exact length_layoutLoop _ _ _ _ _ _ _ _

theorem length_foldl_layoutSignal (env : Env) (S : StdSort) (ps : List SigPtr) :
    ∀ items : List Item, (ps.foldl (layoutSignal env S) items).length = items.length := by
  induction ps with
  | nil => intro items; rfl
  | cons p ps ih => intro items; rw [List.foldl_cons, ih, length_layoutSignal]

theorem count_sigs_layoutLoop (env : Env) (S : StdSort) (p : SigPtr) (a b : Int) (q : SigPtr)
    (k : Nat) (n : Nat) :
    ∀ (j : Int) (items : List Item),
      (cellAt (layoutLoop env S p a b n j items) k).sigs.count q =
        (cellAt items k).sigs.count q +
          (if q = p then
            (laidBits env items.length (env.sig p) n j).countP
              (fun i => decide (cellIndex env (env.sig p) i = (k : Int)))
           else 0) := by
  induction n with
  | zero => intro j items; simp [layoutLoop, laidBits]
  | succ n ih =>
    intro j items
    simp only [layoutLoop, laidBits]
    by_cases hb : InBounds items.length (cellIndex env (env.sig p) j)
    · simp only [hb, if_true]
      rw [ih, List.length_modify, cellAt_modify]
      obtain ⟨h0, h1⟩ := hb
      by_cases hk : cellIndex env (env.sig p) j = (k : Int)
      · have hk1 : (cellIndex env (env.sig p) j).toNat = k := by omega
        have hk2 : k < items.length := by omega
        simp only [hk1, hk2, and_self, if_true]
        rw [(placeInCell_sigs_perm env S p a b j (cellAt items k)).count_eq,
          List.count_append, List.countP_cons]
        by_cases hq : q = p
        · subst hq; simp [hk]; omega
        · have hq1 : ¬ p = q := fun h => hq h.symm
          simp [hq, hq1]
      · have hk1 : ¬ ((cellIndex env (env.sig p) j).toNat = k ∧ k < items.length) := by
          omega
        simp only [hk1, if_false, List.countP_cons, hk, decide_False]
        simp
    · simp [hb]

theorem CellsSorted_layoutLoop (env : Env) (S : StdSort) (p : SigPtr) (a b : Int) (n : Nat) :
    ∀ (j : Int) (items : List Item), CellsSorted env items →
      CellsSorted env (layoutLoop env S p a b n j items) := by
  induction n with
  | zero => intro j items h; exact h
  | succ n ih =>
    intro j items h
    simp only [layoutLoop]
    split
    · apply ih
      intro k
      rw [cellAt_modify]
      split
      · exact placeInCell_sorted _ _ _ _ _ _ _
      · exact h k
    · exact h

theorem count_sigs_layoutSignal (env : Env) (S : StdSort) (items : List Item) (p q : SigPtr)
    (k : Nat) :
    (cellAt (layoutSignal env S items p) k).sigs.count q =
      (cellAt items k).sigs.count q + (if q = p then laidCount env items.length p k else 0) := by
  unfold layoutSignal laidCount
  exact count_sigs_layoutLoop _ _ _ _ _ _ _ _ _ _

theorem count_sigs_foldl_layoutSignal (env : Env) (S : StdSort) (q : SigPtr) (k : Nat)
    (ps : List SigPtr) :
    ∀ items : List Item,
      (cellAt (ps.foldl (layoutSignal env S) items) k).sigs.count q =
        (cellAt items k).sigs.count q + ps.count q * laidCount env items.length q k := by
  induction ps with
  | nil => intro items; simp
  | cons p ps ih =>
    intro items
    rw [List.foldl_cons, ih, length_layoutSignal, count_sigs_layoutSignal, List.count_cons]
    by_cases hq : q = p
    · subst hq
      simp only [if_true, beq_self_eq_true]
      rw [Nat.add_mul, Nat.one_mul]; omega
    · have hq1 : ¬ p = q := fun h => hq h.symm
      simp [hq, hq1]

theorem CellsSorted_foldl_layoutSignal (env : Env) (S : StdSort) (ps : List SigPtr) :
    ∀ items : List Item, CellsSorted env items →
      CellsSorted env (ps.foldl (layoutSignal env S) items) := by
  induction ps with
  | nil => intro items h; exact h
  | cons p ps ih =>
    intro items h
    rw [List.foldl_cons]
    exact ih _ (CellsSorted_layoutLoop _ _ _ _ _ _ _ _ h)

theorem mem_laidBits (env : Env) (len : Nat) (s : Signal) (n : Nat) :
    ∀ (j j' : Int), j' ∈ laidBits env len s n j ↔
      (j ≤ j' ∧ j' < j + n ∧ ∀ i, j ≤ i → i ≤ j' → InBounds len (cellIndex env s i)) := by
  induction n with
  | zero =>
    intro j j'
    simp only [laidBits, List.not_mem_nil, false_iff]
    rintro ⟨h1, h2, _⟩
    simp at h2; omega
  | succ n ih =>
    intro j j'
    simp only [laidBits]
    by_cases hb : InBounds len (cellIndex env s j)
    · simp only [hb, if_true, List.mem_cons, ih]
      constructor
      · rintro (h | ⟨h1, h2, h3⟩)
        · subst h
          refine ⟨le_refl _, by push_cast; omega, ?_⟩
          intro i hi1 hi2
          have : i = j' := by omega
          rw [this]; exact hb
        · refine ⟨by omega, by push_cast; omega, ?_⟩
          intro i hi1 hi2
          by_cases hij : i = j
          · rw [hij]; exact hb
          · exact h3 i (by omega) hi2
      · rintro ⟨h1, h2, h3⟩
        by_cases hjj : j' = j
        · exact Or.inl hjj
        · refine Or.inr ⟨by omega, by push_cast at h2; omega, ?_⟩
          intro i hi1 hi2
          exact h3 i (by omega) hi2
    · simp only [hb, if_false, List.not_mem_nil, false_iff]
      rintro ⟨h1, _, h3⟩
      exact hb (h3 j (le_refl _) h1)

theorem laidCount_pos_iff (env : Env) (len : Nat) (p : SigPtr) (k : Nat) :
    0 < laidCount env len p k ↔ LaidAt env len p k := by
  unfold laidCount LaidAt Reaches
  simp only [List.countP_pos_iff, mem_laidBits, decide_eq_true_eq]
  constructor
  · rintro ⟨j, ⟨h1, h2, h3⟩, h4⟩
    exact ⟨j, ⟨h1, by omega, h3⟩, h4⟩
  · rintro ⟨j, ⟨h1, h2, h3⟩, h4⟩
    exact ⟨j, ⟨h1, by omega, h3⟩, h4⟩

/-! ## Lemmas on the overlay: the structural part of a cell is not written -/

theorem core_cellAt_modify (f : Item → Item) (hf : ∀ it, core (f it) = core it) (n : Nat)
    (l : List Item) (k : Nat) : core (cellAt (l.modify f n) k) = core (cellAt l k) := by
  rw [cellAt_modify]
  split
  · exact hf _
  · rfl

theorem core_cellAt_updateItem (items : List Item) (row col : Nat) (val : String)
    (color : QColor) (k : Nat) :
    core (cellAt (updateItem items row col val color) k) = core (cellAt items k) := by
  unfold updateItem
  apply core_cellAt_modify
  intro it
  split <;> rfl

theorem length_updateItem (items : List Item) (row col : Nat) (val : String)
    (color : QColor) : (updateItem items row col val color).length = items.length := by
  unfold updateItem
  exact List.length_modify _ _ _

theorem foldl_invariant {α β : Type} (P : β → Prop) (f : β → α → β)
    (hf : ∀ b a, P b → P (f b a)) (l : List α) : ∀ b, P b → P (l.foldl f b) := by
  induction l with
  | nil => intro b hb; exact hb
  | cons a l ih => intro b hb; exact ih _ (hf b a hb)

theorem core_cellAt_updateByte (env : Env) (last : CanData) (items : List Item) (i k : Nat) :
    core (cellAt (updateByte env last items i) k) = core (cellAt items k) := by
  unfold updateByte
  rw [core_cellAt_updateItem]
  refine foldl_invariant (fun its => core (cellAt its k) = core (cellAt items k)) _ ?_ _ _ rfl
  intro its j h
  unfold updateBit
  rw [core_cellAt_updateItem]; exact h

theorem length_updateByte (env : Env) (last : CanData) (items : List Item) (i : Nat) :
    (updateByte env last items i).length = items.length := by
  unfold updateByte
  rw [length_updateItem]
  refine foldl_invariant (fun its : List Item => its.length = items.length) _ ?_ _ _ rfl
  intro its j h
  unfold updateBit
  rw [length_updateItem]; exact h

theorem core_cellAt_overlay (env : Env) (last : CanData) (items : List Item) (n k : Nat) :
    core (cellAt ((List.range n).foldl (updateByte env last) items) k) = core (cellAt items k) := by
  refine foldl_invariant (fun its => core (cellAt its k) = core (cellAt items k)) _ ?_ _ _ rfl
  intro its j h
  rw [core_cellAt_updateByte]; exact h

theorem length_overlay (env : Env) (last : CanData) (items : List Item) (n : Nat) :
    ((List.range n).foldl (updateByte env last) items).length = items.length := by
  refine foldl_invariant (fun its : List Item => its.length = items.length) _ ?_ _ _ rfl
  intro its j h
  rw [length_updateByte]; exact h

theorem core_cellAt_markValid (items : List Item) (n k : Nat) :
    core (cellAt (markValid items n) k) = core (cellAt items k) := by
  unfold markValid
  refine foldl_invariant (fun its => core (cellAt its k) = core (cellAt items k)) _ ?_ _ _ rfl
  intro its j h
  rw [core_cellAt_modify _ (fun it => by rfl)]; exact h

theorem length_markValid (items : List Item) (n : Nat) :
    (markValid items n).length = items.length := by
  unfold markValid
  refine foldl_invariant (fun its : List Item => its.length = items.length) _ ?_ _ _ rfl
  intro its j h
  rw [List.length_modify]; exact h

/-! ## Lemmas on `updateState` and `refresh` -/

theorem updateState_row_count (env : Env) (last : CanData) (m : BinaryViewModel) :
    (updateState env last m).row_count = max m.row_count last.dat.length := by
  unfold updateState
  by_cases h : last.dat.length > m.row_count
  · simp only [h, if_true]; omega
  · simp only [h, if_false]; omega

theorem updateState_length (env : Env) (last : CanData) (m : BinaryViewModel) :
    (updateState env last m).items.length =
      if last.dat.length > m.row_count then last.dat.length * column_count
      else m.items.length := by
  unfold updateState
  by_cases h : last.dat.length > m.row_count
  · simp only [h, if_true, length_overlay, length_resize]
  · simp only [h, if_false, length_overlay]

theorem core_cellAt_updateState (env : Env) (last : CanData) (m : BinaryViewModel) (k : Nat)
    (hlen : m.items.length ≤ m.row_count * column_count) :
    core (cellAt (updateState env last m).items k) = core (cellAt m.items k) := by
  unfold updateState
  by_cases h : last.dat.length > m.row_count
  · simp only [h, if_true, core_cellAt_overlay, cellAt_resize]
    split
    · rfl
    · rw [cellAt_of_length_le]
      have : m.row_count * column_count ≤ last.dat.length * column_count :=
        Nat.mul_le_mul_right _ (by omega)
      omega
  · simp only [h, if_false, core_cellAt_overlay]

theorem updateState_invariant (env : Env) (last : CanData) (m : BinaryViewModel)
    (h : m.items.length = m.row_count * column_count) :
    (updateState env last m).items.length =
      (updateState env last m).row_count * column_count := by
  rw [updateState_length, updateState_row_count]
  split
  · rw [Nat.max_eq_right (by omega)]
  · rw [Nat.max_eq_left (by omega)]; exact h

theorem length_laidOut (env : Env) (S : StdSort) (msg : Msg) :
    (laidOut env S msg).length = msg.size * column_count := by
  unfold laidOut
  rw [length_foldl_layoutSignal, length_resize]

theorem refresh_some (env : Env) (S : StdSort) (msg : Msg) (last : CanData) :
    refresh env S (some msg) last =
      updateState env last
        { row_count := msg.size,
          items := markValid (laidOut env S msg) (min last.dat.length msg.size * column_count) } := by
  rfl

theorem refresh_none (env : Env) (S : StdSort) (last : CanData) :
    refresh env S none last =
      updateState env last
        { row_count := last.dat.length,
          items := markValid (resize [] (last.dat.length * column_count))
            (min last.dat.length last.dat.length * column_count) } := by
  rfl

theorem refresh_invariant (env : Env) (S : StdSort) (dbc_msg : Option Msg) (last : CanData) :
    (refresh env S dbc_msg last).items.length =
      (refresh env S dbc_msg last).row_count * column_count := by
  cases dbc_msg with
  | none =>
    rw [refresh_none]
    apply updateState_invariant
    simp only [length_markValid, length_resize]
  | some msg =>
    rw [refresh_some]
    apply updateState_invariant
    simp only [length_markValid, length_laidOut]

theorem refresh_row_count_some (env : Env) (S : StdSort) (msg : Msg) (last : CanData) :
    (refresh env S (some msg) last).row_count = max msg.size last.dat.length := by
  rw [refresh_some, updateState_row_count]

theorem refresh_row_count_none (env : Env) (S : StdSort) (last : CanData) :
    (refresh env S none last).row_count = last.dat.length := by
  rw [refresh_none, updateState_row_count]
  simp

theorem core_cellAt_refresh_some (env : Env) (S : StdSort) (msg : Msg) (last : CanData)
    (k : Nat) :
    core (cellAt (refresh env S (some msg) last).items k) = core (cellAt (laidOut env S msg) k) := by
  rw [refresh_some, core_cellAt_updateState, core_cellAt_markValid]
  simp only [length_markValid, length_laidOut]
  exact le_refl _

theorem core_cellAt_refresh_none (env : Env) (S : StdSort) (last : CanData) (k : Nat) :
    core (cellAt (refresh env S none last).items k) = core default := by
  rw [refresh_none, core_cellAt_updateState, core_cellAt_markValid, cellAt_resize]
  · split
    · rw [cellAt_of_length_le]; simp
    · rfl
  · simp only [length_markValid, length_resize]
    exact le_refl _

theorem reachable_invariant (m : BinaryViewModel) (h : Reachable m) :
    m.items.length = m.row_count * column_count := by
  induction h with
  | init => rfl
  | refresh env S dbc_msg last => exact refresh_invariant env S dbc_msg last
  | updateState env last m _ ih => exact updateState_invariant env last m ih

theorem mem_cellAt (items : List Item) (it : Item) (h : it ∈ items) :
    ∃ k, k < items.length ∧ cellAt items k = it := by
  obtain ⟨k, hk, hit⟩ := List.mem_iff_getElem.mp h
  exact ⟨k, hk, by rw [cellAt_of_lt _ _ hk]; exact hit⟩

/-! ## Integer division as the source computes it -/

theorem tdiv_tmod_of_nonneg (b : Int) (h : 0 ≤ b) : b.tdiv 8 = b / 8 ∧ b.tmod 8 = b % 8 :=
  ⟨Int.tdiv_eq_ediv h (by decide), Int.tmod_eq_emod h (by decide)⟩

theorem tdiv_tmod_of_neg (b : Int) (h : b < 0) :
    b.tdiv 8 = -((-b) / 8) ∧ b.tmod 8 = -((-b) % 8) := by
  have h1 : (- -b).tdiv 8 = -((-b).tdiv 8) := Int.neg_tdiv (-b) 8
  rw [neg_neg] at h1
  have h2 : (-b).tdiv 8 = (-b) / 8 := Int.tdiv_eq_ediv (by omega) (by decide)
  have h3 := Int.tdiv_add_tmod b 8
  constructor
  · rw [h1, h2]
  · rw [h1, h2] at h3; omega

/-! ## Bit addressing -/

/-- C2: for every bit index `b` with `0 <= b < row_count * 8` and both
endianness values `e`, the grid position `bitIndex b e` (row `b / 8`, column
`e ? 7 - b % 8 : b % 8`) converted back with `get_bit_index` is `b` again;
the position is a bit cell of the grid. -/
theorem get_bit_index_bitIndex (row_count : Nat) (b : Int) (e : Bool) (h0 : 0 ≤ b)
    (h1 : b < (row_count : Int) * 8) :
    get_bit_index (bitIndex b e) e = b ∧
      (bitIndex b e).isValid = true ∧ (bitIndex b e).row < row_count ∧
      (bitIndex b e).column ≤ 7 := by
  obtain ⟨hd, hm⟩ := tdiv_tmod_of_nonneg b h0
  cases e <;>
    simp only [get_bit_index, bitIndex, QModelIndex.isValid, hd, hm, if_true, if_false,
      Bool.false_eq_true, Bool.and_eq_true, decide_eq_true_eq] <;>
    omega

theorem get_bit_index_bitIndex_witness :
    get_bit_index (bitIndex 13 true) true = 13 ∧
      (bitIndex 13 true).isValid = true ∧ (bitIndex 13 true).row < (2 : Nat) ∧
      (bitIndex 13 true).column ≤ 7 :=
  get_bit_index_bitIndex 2 13 true (by decide) (by decide)

/-! ## The overlay grows the grid and keeps its structure -/

/-- C4: in a state with `row_count * 9` cells, when `updateState` receives a
payload longer than `row_count` the grid grows to exactly payload-length
rows, every cell that existed keeps its signal list and its msb and lsb flags,
and every added cell has an empty signal list; when the payload is not longer
than `row_count`, `row_count` and the number of cells are unchanged. -/
theorem updateState_grows_only (env : Env) (last : CanData) (m : BinaryViewModel)
    (hinv : m.items.length = m.row_count * column_count) :
    (m.row_count < last.dat.length →
      (updateState env last m).row_count = last.dat.length ∧
      (updateState env last m).items.length = last.dat.length * column_count ∧
      (∀ k, k < m.items.length →
        (cellAt (updateState env last m).items k).sigs = (cellAt m.items k).sigs ∧
        (cellAt (updateState env last m).items k).is_msb = (cellAt m.items k).is_msb ∧
        (cellAt (updateState env last m).items k).is_lsb = (cellAt m.items k).is_lsb) ∧
      (∀ k, m.items.length ≤ k → k < last.dat.length * column_count →
        (cellAt (updateState env last m).items k).sigs = [])) ∧
    (last.dat.length ≤ m.row_count →
      (updateState env last m).row_count = m.row_count ∧
      (updateState env last m).items.length = m.items.length) := by
  have hcore : ∀ k, core (cellAt (updateState env last m).items k) = core (cellAt m.items k) :=
    fun k => core_cellAt_updateState env last m k (le_of_eq hinv)
  constructor
  · intro hlt
    refine ⟨?_, ?_, ?_, ?_⟩
    · rw [updateState_row_count]; omega
    · rw [updateState_length]; simp [hlt]
    · intro k _
      have h := hcore k
      simp only [core, Prod.mk.injEq] at h
      exact h
    · intro k hk _
      have h := hcore k
      simp only [core, Prod.mk.injEq] at h
      rw [h.1, cellAt_of_length_le _ _ hk]
      rfl
  · intro hle
    constructor
    · rw [updateState_row_count]; omega
    · rw [updateState_length]
      have : ¬ last.dat.length > m.row_count := by omega
      simp [this]

theorem updateState_grows_only_witness :
    sampleGrid.items.length = sampleGrid.row_count * column_count ∧
    (updateState (storeEnv []) samplePayload sampleGrid).row_count = 10 ∧
    (updateState (storeEnv []) samplePayload sampleGrid).items.length = 90 ∧
    (cellAt (updateState (storeEnv []) samplePayload sampleGrid).items 0).sigs = [0] ∧
    (cellAt (updateState (storeEnv []) samplePayload sampleGrid).items 0).is_msb = true ∧
    (cellAt (updateState (storeEnv []) samplePayload sampleGrid).items 80).sigs = [] := by
  have hinv : sampleGrid.items.length = sampleGrid.row_count * column_count := by decide
  have h := (updateState_grows_only (storeEnv []) samplePayload sampleGrid hinv).1 (by decide)
  refine ⟨hinv, h.1, h.2.1, ?_, ?_, ?_⟩
  · exact ((h.2.2.1 0 (by decide)).1).trans (by decide)
  · exact ((h.2.2.1 0 (by decide)).2.1).trans (by decide)
  · exact h.2.2.2 80 (by decide) (by decide)

/-! ## The size of the grid -/

/-- C5: the number of cells equals `row_count * 9` in every state of the
model, so after every `refresh` and after every `updateState`; a rebuild for
a definition of 8 bytes without signals and a payload of at most 8 bytes, or
without a definition and a payload of 8 bytes, yields 8 rows and exactly 72
cells, all with empty signal lists. -/
theorem cells_eq_row_count_mul_nine :
    (∀ m : BinaryViewModel, Reachable m → m.items.length = m.row_count * 9) ∧
    (∀ (env : Env) (S : StdSort) (dbc_msg : Option Msg) (last : CanData),
      (refresh env S dbc_msg last).items.length = (refresh env S dbc_msg last).row_count * 9) ∧
    (∀ (env : Env) (last : CanData) (m : BinaryViewModel), Reachable m →
      (updateState env last m).items.length = (updateState env last m).row_count * 9) ∧
    (∀ (env : Env) (S : StdSort) (last : CanData), last.dat.length ≤ 8 →
      (refresh env S (some ⟨8, []⟩) last).row_count = 8 ∧
      (refresh env S (some ⟨8, []⟩) last).items.length = 72 ∧
      ∀ it ∈ (refresh env S (some ⟨8, []⟩) last).items, it.sigs = []) ∧
    (∀ (env : Env) (S : StdSort) (last : CanData), last.dat.length = 8 →
      (refresh env S none last).row_count = 8 ∧
      (refresh env S none last).items.length = 72 ∧
      ∀ it ∈ (refresh env S none last).items, it.sigs = []) := by
  refine ⟨reachable_invariant, refresh_invariant, ?_, ?_, ?_⟩
  · intro env last m hm
    exact reachable_invariant _ (Reachable.updateState env last m hm)
  · intro env S last hlast
    have hrow : (refresh env S (some ⟨8, []⟩) last).row_count = 8 := by
      rw [refresh_row_count_some]; simp only []; omega
    refine ⟨hrow, ?_, ?_⟩
    · rw [refresh_invariant, hrow]; rfl
    · intro it hit
      obtain ⟨k, _, hk⟩ := mem_cellAt _ _ hit
      have h := core_cellAt_refresh_some env S ⟨8, []⟩ last k
      rw [hk] at h
      simp only [core, Prod.mk.injEq] at h
      rw [h.1]
      simp only [laidOut, List.foldl_nil, cellAt_resize]
      split
      · rw [cellAt_of_length_le _ _ (by simp)]; rfl
      · rfl
  · intro env S last hlast
    have hrow : (refresh env S none last).row_count = 8 := by
      rw [refresh_row_count_none]; exact hlast
    refine ⟨hrow, ?_, ?_⟩
    · rw [refresh_invariant, hrow]; rfl
    · intro it hit
      obtain ⟨k, _, hk⟩ := mem_cellAt _ _ hit
      have h := core_cellAt_refresh_none env S last k
      rw [hk] at h
      simp only [core, Prod.mk.injEq] at h
      rw [h.1]
      rfl

theorem cells_eq_row_count_mul_nine_witness :
    (updateState (storeEnv []) samplePayload
        (refresh (storeEnv []) insertionStdSort (some ⟨8, []⟩) samplePayload)).items.length =
      (updateState (storeEnv []) samplePayload
        (refresh (storeEnv []) insertionStdSort (some ⟨8, []⟩) samplePayload)).row_count * 9 :=
  cells_eq_row_count_mul_nine.1 _
    (Reachable.updateState _ _ _ (Reachable.refresh _ _ _ _))

/-! ## The signal lists after the layout -/

theorem cellAt_resize_nil (n k : Nat) : cellAt (resize [] n) k = default := by
  rw [cellAt_resize]
  split
  · exact cellAt_of_length_le _ _ (by simp)
  · rfl

theorem count_sigs_laidOut (env : Env) (S : StdSort) (msg : Msg) (q : SigPtr) (k : Nat) :
    (cellAt (laidOut env S msg) k).sigs.count q =
      msg.getSignals.count q * laidCount env (msg.size * column_count) q k := by
  unfold laidOut
  rw [count_sigs_foldl_layoutSignal, cellAt_resize_nil, length_resize]
  show List.count q [] + _ = _
  simp

theorem mem_sigs_laidOut (env : Env) (S : StdSort) (msg : Msg) (q : SigPtr) (k : Nat) :
    q ∈ (cellAt (laidOut env S msg) k).sigs ↔
      q ∈ msg.getSignals ∧ LaidAt env (msg.size * column_count) q k := by
  rw [← List.count_pos_iff, count_sigs_laidOut, ← laidCount_pos_iff, ← List.count_pos_iff (a := q)]
  exact Nat.pos_iff_ne_zero.trans (Nat.mul_ne_zero_iff.trans
    (and_congr Nat.pos_iff_ne_zero.symm Nat.pos_iff_ne_zero.symm))

theorem CellsSorted_laidOut (env : Env) (S : StdSort) (msg : Msg) :
    CellsSorted env (laidOut env S msg) := by
  unfold laidOut
  apply CellsSorted_foldl_layoutSignal
  intro k
  rw [cellAt_resize_nil]
  exact List.Pairwise.nil

theorem cellIndex_inj (env : Env) (hflip : FlipInjective env) (s : Signal) (j1 j2 : Int)
    (h0 : 0 ≤ cellIndex env s j1) (h : cellIndex env s j1 = cellIndex env s j2) : j1 = j2 := by
  have key : ∀ b1 b2 : Int, 0 ≤ (column_count : Int) * b1.tdiv 8 + b1.tmod 8 →
      (column_count : Int) * b1.tdiv 8 + b1.tmod 8 = (column_count : Int) * b2.tdiv 8 + b2.tmod 8 →
      0 ≤ b1 ∧ b1 = b2 := by
    intro b1 b2 hb0 hb
    have hc : (column_count : Int) = 9 := rfl
    rw [hc] at hb0 hb
    rcases lt_or_le b1 0 with h1 | h1
    · obtain ⟨hd, hm⟩ := tdiv_tmod_of_neg b1 h1
      rw [hd, hm] at hb0
      omega
    · obtain ⟨hd, hm⟩ := tdiv_tmod_of_nonneg b1 h1
      rw [hd, hm] at hb
      rcases lt_or_le b2 0 with h2 | h2
      · obtain ⟨hd2, hm2⟩ := tdiv_tmod_of_neg b2 h2
        rw [hd2, hm2] at hb
        omega
      · obtain ⟨hd2, hm2⟩ := tdiv_tmod_of_nonneg b2 h2
        rw [hd2, hm2] at hb
        exact ⟨h1, by omega⟩
  unfold cellIndex at h0 h
  cases hle : s.is_little_endian
  · simp only [hle, Bool.false_eq_true, if_false] at h0 h
    exact (key _ _ h0 h).2
  · simp only [hle, if_true] at h0 h
    obtain ⟨hb0, hb⟩ := key _ _ h0 h
    exact hflip _ _ hb0 hb

theorem nodup_laidBits (env : Env) (len : Nat) (s : Signal) (n : Nat) :
    ∀ j : Int, (laidBits env len s n j).Nodup := by
  induction n with
  | zero => intro j; exact List.nodup_nil
  | succ n ih =>
    intro j
    simp only [laidBits]
    split
    · refine List.nodup_cons.mpr ⟨?_, ih _⟩
      intro hmem
      have := ((mem_laidBits env len s n (j + 1) j).mp hmem).1
      omega
    · exact List.nodup_nil

theorem countP_le_one_of_nodup {α : Type} [DecidableEq α] (f : α → Bool) (l : List α)
    (hnd : l.Nodup) (hinj : ∀ x ∈ l, ∀ y ∈ l, f x = true → f y = true → x = y) :
    l.countP f ≤ 1 := by
  induction l with
  | nil => simp
  | cons a l ih =>
    rw [List.nodup_cons] at hnd
    have ih1 := ih hnd.2 (fun x hx y hy => hinj x (List.mem_cons_of_mem _ hx) y
      (List.mem_cons_of_mem _ hy))
    rw [List.countP_cons]
    by_cases hfa : f a = true
    · have hzero : l.countP f = 0 := by
        rw [List.countP_eq_zero]
        intro x hx hfx
        have := hinj a (List.mem_cons_self _ _) x (List.mem_cons_of_mem _ hx) hfa hfx
        exact hnd.1 (this ▸ hx)
      simp [hfa, hzero]
    · simp [hfa]; exact ih1

theorem laidCount_le_one (env : Env) (hflip : FlipInjective env) (len : Nat) (p : SigPtr)
    (k : Nat) : laidCount env len p k ≤ 1 := by
  unfold laidCount
  apply countP_le_one_of_nodup _ _ (nodup_laidBits _ _ _ _ _)
  intro x _ y _ hx hy
  simp only [decide_eq_true_eq] at hx hy
  exact cellIndex_inj env hflip (env.sig p) x y (by omega) (by omega)

theorem nodup_sigs_laidOut (env : Env) (S : StdSort) (msg : Msg) (hnd : msg.getSignals.Nodup)
    (hflip : FlipInjective env) (k : Nat) : (cellAt (laidOut env S msg) k).sigs.Nodup := by
  rw [List.nodup_iff_count_le_one]
  intro q
  rw [count_sigs_laidOut]
  have h1 := List.nodup_iff_count_le_one.mp hnd q
  have h2 := laidCount_le_one env hflip (msg.size * column_count) q k
  calc List.count q msg.getSignals * laidCount env (msg.size * column_count) q k
      ≤ 1 * 1 := Nat.mul_le_mul h1 h2
    _ = 1 := rfl

theorem sigs_refresh_some (env : Env) (S : StdSort) (msg : Msg) (last : CanData) (k : Nat) :
    (cellAt (refresh env S (some msg) last).items k).sigs = (cellAt (laidOut env S msg) k).sigs := by
  have h := core_cellAt_refresh_some env S msg last k
  simp only [core, Prod.mk.injEq] at h
  exact h.1

theorem sigs_refresh_none (env : Env) (S : StdSort) (last : CanData) (k : Nat) :
    (cellAt (refresh env S none last).items k).sigs = [] := by
  have h := core_cellAt_refresh_none env S last k
  simp only [core, Prod.mk.injEq] at h
  rw [h.1]; rfl

/-! ## The boundary flags after the layout -/

theorem FlagsLe.refl (a : Item) : FlagsLe a a := ⟨id, id⟩

theorem FlagsLe.trans {a b c : Item} (h1 : FlagsLe a b) (h2 : FlagsLe b c) : FlagsLe a c :=
  ⟨fun h => h2.1 (h1.1 h), fun h => h2.2 (h1.2 h)⟩

theorem FlagsLe_markStart (s : Signal) (it : Item) : FlagsLe it (markStart s it) := by
  unfold markStart FlagsLe
  split <;> simp

theorem FlagsLe_markEnd (s : Signal) (it : Item) : FlagsLe it (markEnd s it) := by
  unfold markEnd FlagsLe
  split <;> simp

theorem FlagsLe_pushSorted (env : Env) (S : StdSort) (p : SigPtr) (it : Item) :
    FlagsLe it (pushSorted env S p it) := ⟨id, id⟩

theorem FlagsLe_placeInCell (env : Env) (S : StdSort) (p : SigPtr) (a b j : Int) (it : Item) :
    FlagsLe it (placeInCell env S p a b j it) := by
  unfold placeInCell
  refine FlagsLe.trans ?_ (FlagsLe_pushSorted _ _ _ _)
  split
  · refine FlagsLe.trans ?_ (FlagsLe_markEnd _ _)
    split
    · exact FlagsLe_markStart _ _
    · exact FlagsLe.refl _
  · split
    · exact FlagsLe_markStart _ _
    · exact FlagsLe.refl _

theorem startFlag_placeInCell (env : Env) (S : StdSort) (p : SigPtr) (a b : Int) (it : Item) :
    startFlag (env.sig p) (placeInCell env S p a b a it) = true := by
  have h1 : startFlag (env.sig p) (markStart (env.sig p) it) = true := by
    unfold startFlag markStart
    cases (env.sig p).is_little_endian <;> simp
  have h2 : ∀ x y : Item, FlagsLe x y → startFlag (env.sig p) x = true →
      startFlag (env.sig p) y = true := by
    intro x y hxy
    unfold startFlag
    cases (env.sig p).is_little_endian
    · simpa using hxy.1
    · simpa using hxy.2
  unfold placeInCell
  simp only [if_true]
  refine h2 _ _ (FlagsLe_pushSorted _ _ _ _) ?_
  split
  · exact h2 _ _ (FlagsLe_markEnd _ _) h1
  · exact h1

theorem endFlag_placeInCell (env : Env) (S : StdSort) (p : SigPtr) (a b : Int) (it : Item) :
    endFlag (env.sig p) (placeInCell env S p a b b it) = true := by
  unfold placeInCell pushSorted
  simp only [if_true]
  unfold endFlag markEnd
  cases (env.sig p).is_little_endian <;> simp

theorem startFlag_of_FlagsLe (s : Signal) (x y : Item) (hxy : FlagsLe x y)
    (h : startFlag s x = true) : startFlag s y = true := by
  unfold startFlag at *
  cases hs : s.is_little_endian
  · rw [hs] at h; exact hxy.1 h
  · rw [hs] at h; exact hxy.2 h

theorem endFlag_of_FlagsLe (s : Signal) (x y : Item) (hxy : FlagsLe x y)
    (h : endFlag s x = true) : endFlag s y = true := by
  unfold endFlag at *
  cases hs : s.is_little_endian
  · rw [hs] at h; exact hxy.2 h
  · rw [hs] at h; exact hxy.1 h

theorem FlagsLe_layoutLoop (env : Env) (S : StdSort) (p : SigPtr) (a b : Int) (k : Nat)
    (n : Nat) : ∀ (j : Int) (items : List Item),
      FlagsLe (cellAt items k) (cellAt (layoutLoop env S p a b n j items) k) := by
  induction n with
  | zero => intro j items; exact FlagsLe.refl _
  | succ n ih =>
    intro j items
    simp only [layoutLoop]
    split
    · refine FlagsLe.trans ?_ (ih _ _)
      rw [cellAt_modify]
      split
      · exact FlagsLe_placeInCell _ _ _ _ _ _ _
      · exact FlagsLe.refl _
    · exact FlagsLe.refl _

theorem FlagsLe_foldl_layoutSignal (env : Env) (S : StdSort) (k : Nat) (ps : List SigPtr) :
    ∀ items : List Item,
      FlagsLe (cellAt items k) (cellAt (ps.foldl (layoutSignal env S) items) k) := by
  induction ps with
  | nil => intro items; exact FlagsLe.refl _
  | cons p ps ih =>
    intro items
    rw [List.foldl_cons]
    exact FlagsLe.trans (FlagsLe_layoutLoop _ _ _ _ _ _ _ _ _) (ih _)

theorem startFlag_layoutSignal (env : Env) (S : StdSort) (items : List Item) (p : SigPtr)
    (hne : (env.getSignalRange (env.sig p)).1 ≤ (env.getSignalRange (env.sig p)).2)
    (hb : InBounds items.length (cellIndex env (env.sig p) (env.getSignalRange (env.sig p)).1)) :
    startFlag (env.sig p) (cellAt (layoutSignal env S items p)
      (cellIndex env (env.sig p) (env.getSignalRange (env.sig p)).1).toNat) = true := by
  unfold layoutSignal
  obtain ⟨n, hn⟩ : ∃ n, ((env.getSignalRange (env.sig p)).2 -
      (env.getSignalRange (env.sig p)).1 + 1).toNat = n + 1 :=
    ⟨_, (Nat.succ_pred_eq_of_pos (by omega)).symm⟩
  simp only [hn, layoutLoop, hb, if_true]
  refine startFlag_of_FlagsLe _ _ _ (FlagsLe_layoutLoop _ _ _ _ _ _ _ _ _) ?_
  rw [cellAt_modify]
  have : (cellIndex env (env.sig p) (env.getSignalRange (env.sig p)).1).toNat < items.length := by
    obtain ⟨h0, h1⟩ := hb; omega
  simp only [this, and_self, if_true]
  exact startFlag_placeInCell _ _ _ _ _ _

theorem endFlag_layoutLoop (env : Env) (S : StdSort) (p : SigPtr) (a b : Int) (n : Nat) :
    ∀ (j : Int) (items : List Item), j + (n : Int) = b →
      (∀ i, j ≤ i → i ≤ b → InBounds items.length (cellIndex env (env.sig p) i)) →
      endFlag (env.sig p) (cellAt (layoutLoop env S p a b (n + 1) j items)
        (cellIndex env (env.sig p) b).toNat) = true := by
  induction n with
  | zero =>
    intro j items hj hb
    have hjb : j = b := by simpa using hj
    subst hjb
    have hbj := hb j (le_refl _) (le_refl _)
    simp only [layoutLoop, hbj, if_true]
    rw [cellAt_modify]
    have : (cellIndex env (env.sig p) j).toNat < items.length := by
      obtain ⟨h0, h1⟩ := hbj; omega
    simp only [this, and_self, if_true]
    exact endFlag_placeInCell _ _ _ _ _ _
  | succ n ih =>
    intro j items hj hb
    have hbj := hb j (le_refl _) (by push_cast at hj; omega)
    rw [layoutLoop]
    simp only [hbj, if_true]
    apply ih
    · push_cast at hj ⊢; omega
    · intro i hi1 hi2
      rw [List.length_modify]
      exact hb i (by omega) hi2

theorem endFlag_layoutSignal (env : Env) (S : StdSort) (items : List Item) (p : SigPtr)
    (hr : Reaches env items.length (env.sig p) (env.getSignalRange (env.sig p)).2) :
    endFlag (env.sig p) (cellAt (layoutSignal env S items p)
      (cellIndex env (env.sig p) (env.getSignalRange (env.sig p)).2).toNat) = true := by
  obtain ⟨h1, _, h3⟩ := hr
  unfold layoutSignal
  obtain ⟨n, hn⟩ : ∃ n, ((env.getSignalRange (env.sig p)).2 -
      (env.getSignalRange (env.sig p)).1 + 1).toNat = n + 1 :=
    ⟨_, (Nat.succ_pred_eq_of_pos (by omega)).symm⟩
  simp only [hn]
  apply endFlag_layoutLoop
  · omega
  · exact h3

theorem startFlag_laidOut (env : Env) (S : StdSort) (msg : Msg) (p : SigPtr)
    (hp : p ∈ msg.getSignals)
    (hne : (env.getSignalRange (env.sig p)).1 ≤ (env.getSignalRange (env.sig p)).2)
    (hb : InBounds (msg.size * column_count)
      (cellIndex env (env.sig p) (env.getSignalRange (env.sig p)).1)) :
    startFlag (env.sig p) (cellAt (laidOut env S msg)
      (cellIndex env (env.sig p) (env.getSignalRange (env.sig p)).1).toNat) = true := by
  obtain ⟨l1, l2, hl⟩ := List.append_of_mem hp
  unfold laidOut
  rw [hl, List.foldl_append, List.foldl_cons]
  refine startFlag_of_FlagsLe _ _ _ (FlagsLe_foldl_layoutSignal _ _ _ _ _) ?_
  apply startFlag_layoutSignal _ _ _ _ hne
  rw [length_foldl_layoutSignal, length_resize]
  exact hb

theorem endFlag_laidOut (env : Env) (S : StdSort) (msg : Msg) (p : SigPtr)
    (hp : p ∈ msg.getSignals)
    (hr : Reaches env (msg.size * column_count) (env.sig p) (env.getSignalRange (env.sig p)).2) :
    endFlag (env.sig p) (cellAt (laidOut env S msg)
      (cellIndex env (env.sig p) (env.getSignalRange (env.sig p)).2).toNat) = true := by
  obtain ⟨l1, l2, hl⟩ := List.append_of_mem hp
  unfold laidOut
  rw [hl, List.foldl_append, List.foldl_cons]
  refine endFlag_of_FlagsLe _ _ _ (FlagsLe_foldl_layoutSignal _ _ _ _ _) ?_
  apply endFlag_layoutSignal
  rw [length_foldl_layoutSignal, length_resize]
  exact hr

theorem flags_refresh_some (env : Env) (S : StdSort) (msg : Msg) (last : CanData) (k : Nat) :
    (cellAt (refresh env S (some msg) last).items k).is_msb = (cellAt (laidOut env S msg) k).is_msb ∧
    (cellAt (refresh env S (some msg) last).items k).is_lsb = (cellAt (laidOut env S msg) k).is_lsb := by
  have h := core_cellAt_refresh_some env S msg last k
  simp only [core, Prod.mk.injEq] at h
  exact h.2

theorem startFlag_refresh (env : Env) (S : StdSort) (msg : Msg) (last : CanData) (s : Signal)
    (k : Nat) :
    startFlag s (cellAt (refresh env S (some msg) last).items k) =
      startFlag s (cellAt (laidOut env S msg) k) := by
  unfold startFlag
  rw [(flags_refresh_some env S msg last k).1, (flags_refresh_some env S msg last k).2]

theorem endFlag_refresh (env : Env) (S : StdSort) (msg : Msg) (last : CanData) (s : Signal)
    (k : Nat) :
    endFlag s (cellAt (refresh env S (some msg) last).items k) =
      endFlag s (cellAt (laidOut env S msg) k) := by
  unfold endFlag
  rw [(flags_refresh_some env S msg last k).1, (flags_refresh_some env S msg last k).2]

theorem storeEnv_flipInjective (store : List Signal) : FlipInjective (storeEnv store) := by
  intro a b h0 h
  have h0' : 0 ≤ bigEndianBitIndex a := h0
  have h' : bigEndianBitIndex a = bigEndianBitIndex b := h
  unfold bigEndianBitIndex at h0' h'
  by_cases ha : 0 ≤ a ∧ a < 512
  · by_cases hb : 0 ≤ b ∧ b < 512
    · simp only [ha, hb, and_self, if_true] at h'
      obtain ⟨h1, h2⟩ := tdiv_tmod_of_nonneg a ha.1
      obtain ⟨h3, h4⟩ := tdiv_tmod_of_nonneg b hb.1
      rw [h1, h2, h3, h4] at h'; omega
    · simp only [ha, hb, and_self, if_true, if_false] at h'
      obtain ⟨h1, h2⟩ := tdiv_tmod_of_nonneg a ha.1
      rw [h1, h2] at h'; omega
  · simp only [ha, if_false] at h0'
    omega

/-! ## The rebuilt grid -/

/-- C1, as the code has it: after `refresh` for a message that has a
definition, the signal list of a cell contains a signal exactly when it is a
signal of the definition laid out in that cell, that is, some position of its
range maps to the cell and no position from the start of the range up to it
maps out of the `size * 9` cells of the declared size (the layout of a signal
stops at its first out-of-bounds position); for a signal whose whole range
is in bounds these are the cells its range covers.  Every list is ordered by
non-increasing signal size; when the signals of the definition are distinct
and `bigEndianBitIndex` is injective, every signal occurs once; the cells of
rows past the declared size, added for a longer payload, have empty lists. -/
theorem refresh_cell_sigs (env : Env) (S : StdSort) (msg : Msg) (last : CanData) :
    (∀ k p, p ∈ (cellAt (refresh env S (some msg) last).items k).sigs ↔
      p ∈ msg.getSignals ∧ LaidAt env (msg.size * column_count) p k) ∧
    (∀ k p, p ∈ msg.getSignals →
      (∀ j, (env.getSignalRange (env.sig p)).1 ≤ j → j ≤ (env.getSignalRange (env.sig p)).2 →
        InBounds (msg.size * column_count) (cellIndex env (env.sig p) j)) →
      (p ∈ (cellAt (refresh env S (some msg) last).items k).sigs ↔
        ∃ j, (env.getSignalRange (env.sig p)).1 ≤ j ∧ j ≤ (env.getSignalRange (env.sig p)).2 ∧
          cellIndex env (env.sig p) j = (k : Int))) ∧
    (∀ k, (cellAt (refresh env S (some msg) last).items k).sigs.Pairwise
      (fun a b => (env.sig b).size ≤ (env.sig a).size)) ∧
    (msg.getSignals.Nodup → FlipInjective env →
      ∀ k, (cellAt (refresh env S (some msg) last).items k).sigs.Nodup) ∧
    (∀ k, msg.size * column_count ≤ k →
      (cellAt (refresh env S (some msg) last).items k).sigs = []) := by
  refine ⟨?_, ?_, ?_, ?_, ?_⟩
  · intro k p
    rw [sigs_refresh_some, mem_sigs_laidOut]
  · intro k p hp hall
    rw [sigs_refresh_some, mem_sigs_laidOut]
    constructor
    · rintro ⟨_, j, ⟨h1, h2, _⟩, h4⟩
      exact ⟨j, h1, h2, h4⟩
    · rintro ⟨j, h1, h2, h4⟩
      exact ⟨hp, j, ⟨h1, h2, fun i hi1 hi2 => hall i hi1 (by omega)⟩, h4⟩
  · intro k
    rw [sigs_refresh_some]
    exact CellsSorted_laidOut env S msg k
  · intro hnd hflip k
    rw [sigs_refresh_some]
    exact nodup_sigs_laidOut env S msg hnd hflip k
  · intro k hk
    rw [sigs_refresh_some, cellAt_of_length_le _ _ (by rw [length_laidOut]; exact hk)]
    rfl

theorem refresh_cell_sigs_witness :
    (cellAt (refresh (storeEnv sampleStore) insertionStdSort (some sampleMsg) twoBytes).items
      7).sigs.Nodup ∧
    (1 ∈ (cellAt (refresh (storeEnv sampleStore) insertionStdSort (some sampleMsg)
      twoBytes).items 7).sigs ↔
      ∃ j, ((storeEnv sampleStore).getSignalRange ((storeEnv sampleStore).sig 1)).1 ≤ j ∧
        j ≤ ((storeEnv sampleStore).getSignalRange ((storeEnv sampleStore).sig 1)).2 ∧
        cellIndex (storeEnv sampleStore) ((storeEnv sampleStore).sig 1) j = ((7 : Nat) : Int)) :=
  ⟨(refresh_cell_sigs (storeEnv sampleStore) insertionStdSort sampleMsg twoBytes).2.2.2.1
      (by decide) (storeEnv_flipInjective sampleStore) 7,
    (refresh_cell_sigs (storeEnv sampleStore) insertionStdSort sampleMsg twoBytes).2.1 7 1
      (by decide)
      (by
        intro j h1 h2
        have h1' : (0 : Int) ≤ j := h1
        have h2' : j ≤ 3 := h2
        have hj : j = 0 ∨ j = 1 ∨ j = 2 ∨ j = 3 := by omega
        rcases hj with h | h | h | h <;> subst h <;> decide)⟩

/-- C1 fails as stated: for a definition of one byte whose big-endian signal
of 16 bits covers bits 0 to 15, and a last payload of two bytes, the rebuilt
grid has two rows, position 8 of the range of the signal maps to the bit cell
of row 1 and column 0 (flat index 9), and the signal list of that cell is
empty. -/
theorem refresh_cell_sigs_counterexample :
    (refresh (storeEnv sampleStore) insertionStdSort (some sampleMsg) twoBytes).row_count = 2 ∧
    ((storeEnv sampleStore).getSignalRange ((storeEnv sampleStore).sig 0)).1 ≤ 8 ∧
    8 ≤ ((storeEnv sampleStore).getSignalRange ((storeEnv sampleStore).sig 0)).2 ∧
    cellIndex (storeEnv sampleStore) ((storeEnv sampleStore).sig 0) 8 = 1 * 9 + 0 ∧
    (0 : SigPtr) ∈ sampleMsg.getSignals ∧
    (cellAt (refresh (storeEnv sampleStore) insertionStdSort (some sampleMsg) twoBytes).items
      (1 * 9 + 0)).sigs = [] := by
  decide

/-- C6, as the code has it: in `refresh`, when position `j0` is the first
position of the range of signal `p` whose cell index is out of bounds, the
layout of `p` stops there and keeps what it wrote: `p` is in the list of the
cell of every position before `j0`, it is in no other list, and when `j0` is
not the first position of the range the start flag of `p` is set in the cell
of the first position.  The rebuild goes on: every other signal occurs in
every cell as often as in the rebuild of the definition without `p`, and
the grid has `row_count * 9` cells. -/
theorem layout_stops_at_first_out_of_bounds (env : Env) (S : StdSort) (msg : Msg)
    (last : CanData) (p : SigPtr) (j0 : Int) (hp : p ∈ msg.getSignals)
    (h1 : (env.getSignalRange (env.sig p)).1 ≤ j0)
    (h2 : j0 ≤ (env.getSignalRange (env.sig p)).2)
    (hout : ¬ InBounds (msg.size * column_count) (cellIndex env (env.sig p) j0))
    (hfirst : ∀ i, (env.getSignalRange (env.sig p)).1 ≤ i → i < j0 →
      InBounds (msg.size * column_count) (cellIndex env (env.sig p) i)) :
    (∀ j, (env.getSignalRange (env.sig p)).1 ≤ j → j < j0 →
      p ∈ (cellAt (refresh env S (some msg) last).items
        (cellIndex env (env.sig p) j).toNat).sigs) ∧
    (∀ k, p ∈ (cellAt (refresh env S (some msg) last).items k).sigs →
      ∃ j, (env.getSignalRange (env.sig p)).1 ≤ j ∧ j < j0 ∧
        cellIndex env (env.sig p) j = (k : Int)) ∧
    ((env.getSignalRange (env.sig p)).1 < j0 →
      startFlag (env.sig p) (cellAt (refresh env S (some msg) last).items
        (cellIndex env (env.sig p) (env.getSignalRange (env.sig p)).1).toNat) = true) ∧
    (∀ q, q ≠ p → ∀ k,
      (cellAt (refresh env S (some msg) last).items k).sigs.count q =
        (cellAt (refresh env S
          (some ⟨msg.size, msg.getSignals.filter (fun x => x != p)⟩) last).items k).sigs.count q) ∧
    (refresh env S (some msg) last).items.length =
      (refresh env S (some msg) last).row_count * column_count := by
  refine ⟨?_, ?_, ?_, ?_, refresh_invariant _ _ _ _⟩
  · intro j hj1 hj2
    rw [sigs_refresh_some, mem_sigs_laidOut]
    refine ⟨hp, j, ⟨hj1, by omega, fun i hi1 hi2 => hfirst i hi1 (by omega)⟩, ?_⟩
    have := (hfirst j hj1 hj2).1
    omega
  · intro k hk
    rw [sigs_refresh_some, mem_sigs_laidOut] at hk
    obtain ⟨_, j, ⟨hj1, _, hj3⟩, hj4⟩ := hk
    refine ⟨j, hj1, ?_, hj4⟩
    by_contra hge
    exact hout (hj3 j0 h1 (by omega))
  · intro hlt
    rw [startFlag_refresh]
    exact startFlag_laidOut env S msg p hp (by omega) (hfirst _ (le_refl _) hlt)
  · intro q hq k
    rw [sigs_refresh_some, sigs_refresh_some, count_sigs_laidOut, count_sigs_laidOut]
    have hc : List.count q (msg.getSignals.filter (fun x => x != p)) =
        List.count q msg.getSignals := by
      rw [List.count_filter]
      simpa using hq
    simp only [hc]

theorem layout_stops_at_first_out_of_bounds_witness :
    (∀ j, ((storeEnv sampleStore).getSignalRange ((storeEnv sampleStore).sig 0)).1 ≤ j → j < 8 →
      0 ∈ (cellAt (refresh (storeEnv sampleStore) insertionStdSort (some sampleMsg)
        twoBytes).items (cellIndex (storeEnv sampleStore) ((storeEnv sampleStore).sig 0) j).toNat).sigs) ∧
    (∀ k, 0 ∈ (cellAt (refresh (storeEnv sampleStore) insertionStdSort (some sampleMsg)
        twoBytes).items k).sigs →
      ∃ j, ((storeEnv sampleStore).getSignalRange ((storeEnv sampleStore).sig 0)).1 ≤ j ∧ j < 8 ∧
        cellIndex (storeEnv sampleStore) ((storeEnv sampleStore).sig 0) j = (k : Int)) :=
  have h := layout_stops_at_first_out_of_bounds (storeEnv sampleStore) insertionStdSort
    sampleMsg twoBytes 0 8 (by decide) (by decide) (by decide) (by decide)
    (by
      intro i hi1 hi2
      have hi1' : (0 : Int) ≤ i := hi1
      have hi : i = 0 ∨ i = 1 ∨ i = 2 ∨ i = 3 ∨ i = 4 ∨ i = 5 ∨ i = 6 ∨ i = 7 := by omega
      rcases hi with h | h | h | h | h | h | h | h <;> subst h <;> decide)
  ⟨h.1, h.2.1⟩

/-- C6 fails as stated: in a definition of one byte, the big-endian signal of
16 bits at address 0 has position 8 of its range mapped to cell index 9, out
of the 9 cells of the grid, and after the rebuild it is in the signal list of
cell 0, whose msb flag it has set. -/
theorem layout_out_of_bounds_counterexample :
    ((storeEnv sampleStore).getSignalRange ((storeEnv sampleStore).sig 0)).1 ≤ 8 ∧
    8 ≤ ((storeEnv sampleStore).getSignalRange ((storeEnv sampleStore).sig 0)).2 ∧
    ¬ InBounds (sampleMsg.size * column_count)
      (cellIndex (storeEnv sampleStore) ((storeEnv sampleStore).sig 0) 8) ∧
    (0 : SigPtr) ∈ (cellAt (refresh (storeEnv sampleStore) insertionStdSort (some ⟨1, [0]⟩)
      twoBytes).items 0).sigs ∧
    (cellAt (refresh (storeEnv sampleStore) insertionStdSort (some ⟨1, [0]⟩)
      twoBytes).items 0).is_msb = true := by
  decide

/-! ## Overlapping signals -/

theorem mem_foldl_insert (p : SigPtr) (l : List SigPtr) :
    ∀ init : Finset SigPtr, p ∈ l.foldl (fun acc s => insert s acc) init ↔ p ∈ init ∨ p ∈ l := by
  induction l with
  | nil => intro init; simp
  | cons a l ih =>
    intro init
    rw [List.foldl_cons, ih, Finset.mem_insert, List.mem_cons]
    constructor
    · rintro ((h | h) | h)
      · exact Or.inr (Or.inl h)
      · exact Or.inl h
      · exact Or.inr (Or.inr h)
    · rintro (h | h | h)
      · exact Or.inl (Or.inr h)
      · exact Or.inl (Or.inl h)
      · exact Or.inr h

theorem mem_foldl_overlapping (p : SigPtr) (items : List Item) :
    ∀ init : Finset SigPtr,
      p ∈ items.foldl
        (fun overlapping item =>
          if item.sigs.length > 1 then
            item.sigs.foldl (fun acc s => insert s acc) overlapping
          else overlapping)
        init ↔
      p ∈ init ∨ ∃ it ∈ items, 1 < it.sigs.length ∧ p ∈ it.sigs := by
  induction items with
  | nil => intro init; simp
  | cons a l ih =>
    intro init
    rw [List.foldl_cons, ih]
    by_cases ha : a.sigs.length > 1
    · simp only [ha, if_true, mem_foldl_insert, List.mem_cons, exists_eq_or_imp]
      constructor
      · rintro ((h | h) | h)
        · exact Or.inl h
        · exact Or.inr (Or.inl ⟨trivial, h⟩)
        · exact Or.inr (Or.inr h)
      · rintro (h | ⟨_, h⟩ | h)
        · exact Or.inl (Or.inl h)
        · exact Or.inl (Or.inr h)
        · exact Or.inr h
    · simp only [ha, if_false, List.mem_cons, exists_eq_or_imp]
      constructor
      · rintro (h | h)
        · exact Or.inl h
        · exact Or.inr (Or.inr h)
      · rintro (h | ⟨h, _⟩ | h)
        · exact Or.inl h
        · exact absurd h id
        · exact Or.inr h

theorem mem_getOverlappingSignals (v : BinaryView) (p : SigPtr) :
    p ∈ getOverlappingSignals v ↔
      ∃ k, p ∈ (cellAt v.model.items k).sigs ∧ 1 < (cellAt v.model.items k).sigs.length := by
  unfold getOverlappingSignals
  rw [mem_foldl_overlapping]
  simp only [Finset.not_mem_empty, false_or]
  constructor
  · rintro ⟨it, hit, h1, h2⟩
    obtain ⟨k, _, hk⟩ := mem_cellAt _ _ hit
    exact ⟨k, by rw [hk]; exact h2, by rw [hk]; exact h1⟩
  · rintro ⟨k, h1, h2⟩
    by_cases hk : k < v.model.items.length
    · refine ⟨v.model.items[k], List.getElem_mem _, ?_, ?_⟩
      · rw [← cellAt_of_lt _ _ hk]; exact h2
      · rw [← cellAt_of_lt _ _ hk]; exact h1
    · rw [cellAt_of_length_le _ _ (by omega)] at h1
      exact absurd h1 (List.not_mem_nil _)

theorem exists_ne_of_nodup (l : List SigPtr) (p : SigPtr) (hnd : l.Nodup) (hlen : 1 < l.length)
    (hp : p ∈ l) : ∃ q, q ≠ p ∧ q ∈ l := by
  match l, hnd, hlen, hp with
  | a :: b :: rest, hnd, _, _ =>
    by_cases hap : a = p
    · refine ⟨b, ?_, by simp⟩
      intro hbp
      rw [List.nodup_cons] at hnd
      exact hnd.1 (by rw [hap, ← hbp]; simp)
    · exact ⟨a, hap, by simp⟩

theorem one_lt_length_of_ne (l : List SigPtr) (p q : SigPtr) (hne : q ≠ p) (hp : p ∈ l)
    (hq : q ∈ l) : 1 < l.length := by
  match l, hp, hq with
  | [a], hp, hq =>
    simp only [List.mem_singleton] at hp hq
    exact absurd (hq.trans hp.symm) hne
  | a :: b :: rest, _, _ => simp

/-- C3, as the code has it: on a grid rebuilt for a definition,
`getOverlappingSignals` returns the signals that are in the list of a cell
that lists more than one signal; when the signals of the definition are
distinct and `bigEndianBitIndex` is injective these are the signals that
share a cell with another signal.  Two different signals of the definition
laid out in a common cell, that is, whose bit ranges meet in a cell of the
declared size before any out-of-bounds position, are both returned, and the
signal list of every cell is ordered by non-increasing size. -/
theorem overlapping_signals_after_refresh (env : Env) (S : StdSort) (msg : Msg)
    (last : CanData) (v : BinaryView) (hv : v.model = refresh env S (some msg) last) :
    (∀ p, p ∈ getOverlappingSignals v ↔
      ∃ k, p ∈ (cellAt v.model.items k).sigs ∧ 1 < (cellAt v.model.items k).sigs.length) ∧
    (msg.getSignals.Nodup → FlipInjective env →
      ∀ p, p ∈ getOverlappingSignals v ↔
        ∃ k q, q ≠ p ∧ p ∈ (cellAt v.model.items k).sigs ∧ q ∈ (cellAt v.model.items k).sigs) ∧
    (∀ p q k, p ≠ q → p ∈ msg.getSignals → q ∈ msg.getSignals →
      LaidAt env (msg.size * column_count) p k → LaidAt env (msg.size * column_count) q k →
      p ∈ getOverlappingSignals v ∧ q ∈ getOverlappingSignals v) ∧
    (∀ k, (cellAt v.model.items k).sigs.Pairwise
      (fun a b => (env.sig b).size ≤ (env.sig a).size)) := by
  refine ⟨mem_getOverlappingSignals v, ?_, ?_, ?_⟩
  · intro hnd hflip p
    rw [mem_getOverlappingSignals]
    constructor
    · rintro ⟨k, h1, h2⟩
      have hnd' : (cellAt v.model.items k).sigs.Nodup := by
        rw [hv, sigs_refresh_some]
        exact nodup_sigs_laidOut env S msg hnd hflip k
      obtain ⟨q, hq1, hq2⟩ := exists_ne_of_nodup _ p hnd' h2 h1
      exact ⟨k, q, hq1, h1, hq2⟩
    · rintro ⟨k, q, hne, h1, h2⟩
      exact ⟨k, h1, one_lt_length_of_ne _ p q hne h1 h2⟩
  · intro p q k hne hp hq hlp hlq
    have h1 : p ∈ (cellAt v.model.items k).sigs := by
      rw [hv, sigs_refresh_some, mem_sigs_laidOut]; exact ⟨hp, hlp⟩
    have h2 : q ∈ (cellAt v.model.items k).sigs := by
      rw [hv, sigs_refresh_some, mem_sigs_laidOut]; exact ⟨hq, hlq⟩
    have hlen := one_lt_length_of_ne _ p q (Ne.symm hne) h1 h2
    exact ⟨(mem_getOverlappingSignals v p).mpr ⟨k, h1, hlen⟩,
      (mem_getOverlappingSignals v q).mpr ⟨k, h2, hlen⟩⟩
  · intro k
    rw [hv, sigs_refresh_some]
    exact CellsSorted_laidOut env S msg k

theorem overlapping_signals_after_refresh_witness :
    sampleView.model =
      refresh (storeEnv sampleStore) insertionStdSort (some sampleMsg) twoBytes ∧
    (0 : SigPtr) ∈ getOverlappingSignals sampleView ∧
    (1 : SigPtr) ∈ getOverlappingSignals sampleView :=
  ⟨rfl,
    (overlapping_signals_after_refresh (storeEnv sampleStore) insertionStdSort sampleMsg
      twoBytes sampleView rfl).2.2.1 0 1 7 (by decide) (by decide) (by decide)
      ⟨7, ⟨by decide, by decide, fun i hi1 hi2 => by
        have hi1' : (0 : Int) ≤ i := hi1
        have hi : i = 0 ∨ i = 1 ∨ i = 2 ∨ i = 3 ∨ i = 4 ∨ i = 5 ∨ i = 6 ∨ i = 7 := by omega
        rcases hi with h | h | h | h | h | h | h | h <;> subst h <;> decide⟩, by decide⟩
      ⟨0, ⟨by decide, by decide, fun i hi1 hi2 => by
        have hi1' : (0 : Int) ≤ i := hi1
        have : i = 0 := by omega
        subst this; decide⟩, by decide⟩⟩

/-- C3 fails as stated: for a definition of one byte with two signals whose
bit ranges both cover bits 8 to 15, and a last payload of two bytes, the
rebuilt grid has two rows, position 8 of either range maps to the bit cell of
row 1 and column 0 (flat index 9), and `getOverlappingSignals` returns
neither signal. -/
theorem overlapping_signals_counterexample :
    overlapView.model.row_count = 2 ∧
    ((storeEnv overlapStore).getSignalRange ((storeEnv overlapStore).sig 0)).1 ≤ 8 ∧
    8 ≤ ((storeEnv overlapStore).getSignalRange ((storeEnv overlapStore).sig 0)).2 ∧
    ((storeEnv overlapStore).getSignalRange ((storeEnv overlapStore).sig 1)).1 ≤ 8 ∧
    8 ≤ ((storeEnv overlapStore).getSignalRange ((storeEnv overlapStore).sig 1)).2 ∧
    cellIndex (storeEnv overlapStore) ((storeEnv overlapStore).sig 0) 8 = 1 * 9 + 0 ∧
    cellIndex (storeEnv overlapStore) ((storeEnv overlapStore).sig 1) 8 = 1 * 9 + 0 ∧
    (0 : SigPtr) ∉ getOverlappingSignals overlapView ∧
    (1 : SigPtr) ∉ getOverlappingSignals overlapView := by
  decide

/-! ## Gestures -/

/-- C7: the direction flag returned by `getSelection` is the resize target's
own `is_little_endian` whenever a resize target is set, whatever the policy;
otherwise, under `MsbFirst` it is true iff the current cell index (the hex
cell counting as bit column 7 of its row) is less than the anchor cell index,
under `LsbFirst` it is the negation of that, under `AlwaysLE` it is true and
under `AlwaysBE` it is false.  With an anchor outside the hex column the
comparison is the one of the index under the cursor itself. -/
theorem getSelection_direction (env : Env) (v : BinaryView) (index : QModelIndex) :
    (∀ s, v.resize_sig = some s →
      (getSelection env v index).2.2 = (env.sig s).is_little_endian) ∧
    (v.resize_sig = none →
      (v.drag_direction = DragDirection.MsbFirst →
        (getSelection env v index).2.2 = (currentCell index).lt v.anchor_index) ∧
      (v.drag_direction = DragDirection.LsbFirst →
        (getSelection env v index).2.2 = !(currentCell index).lt v.anchor_index) ∧
      (v.drag_direction = DragDirection.AlwaysLE → (getSelection env v index).2.2 = true) ∧
      (v.drag_direction = DragDirection.AlwaysBE → (getSelection env v index).2.2 = false)) ∧
    (v.anchor_index.column ≠ 8 →
      (currentCell index).lt v.anchor_index = index.lt v.anchor_index) := by
  refine ⟨?_, ?_, ?_⟩
  · intro s hs
    simp only [getSelection, hs]
  · intro hnone
    refine ⟨?_, ?_, ?_, ?_⟩ <;> intro hd <;> simp only [getSelection, hnone, hd]
  · intro hcol
    unfold currentCell
    by_cases h8 : index.column = 8
    · simp only [h8, if_true, QModelIndex.lt]
      by_cases hr : index.row = v.anchor_index.row
      · have h1 : ¬ (7 : Int) < v.anchor_index.column ↔ ¬ (8 : Int) < v.anchor_index.column := by
          omega
        by_cases h7 : (7 : Int) < v.anchor_index.column
        · have h8' : (8 : Int) < v.anchor_index.column := by omega
          simp [hr, h7, h8']
        · have h8' : ¬ (8 : Int) < v.anchor_index.column := by omega
          simp [hr, h7, h8']
      · simp [hr]
    · simp only [h8, if_false]

theorem getSelection_direction_witness :
    (getSelection (storeEnv sampleStore)
      { model := {}, anchor_index := ⟨1, 5⟩, drag_direction := DragDirection.LsbFirst }
      ⟨0, 8⟩).2.2 = false :=
  ((getSelection_direction (storeEnv sampleStore)
      { model := {}, anchor_index := ⟨1, 5⟩, drag_direction := DragDirection.LsbFirst }
      ⟨0, 8⟩).2.1 rfl).2.1 rfl

/-- C8, as the code has it: with no resize target, the anchor on the cell of
little-endian bit 10 (row 1, column 5), the pointer dragged to the cell of
little-endian bit 3 (row 0, column 4) and policy `MsbFirst`, `getSelection`
resolves `little_endian = true`, because the current index is less than the
anchor, with start bit 3 and size 8; pointer-up with a selection emits
`addSignal(3, 8, true)`. -/
theorem drag_up_msb_first (env : Env) (v : BinaryView) (hr : v.resize_sig = none)
    (ha : v.anchor_index = ⟨1, 5⟩) (hd : v.drag_direction = DragDirection.MsbFirst)
    (hs : v.selection ≠ []) :
    get_bit_index v.anchor_index true = 10 ∧ get_bit_index ⟨0, 4⟩ true = 3 ∧
    QModelIndex.lt ⟨0, 4⟩ v.anchor_index = true ∧
    getSelection env v ⟨0, 4⟩ = (3, 8, true) ∧
    (mouseReleaseEvent env v ⟨0, 4⟩).2 = [Event.addSignal 3 8 true] := by
  have hsel : getSelection env v ⟨0, 4⟩ = (3, 8, true) := by
    simp only [getSelection, hr, hd, ha]
    decide
  refine ⟨by rw [ha]; decide, by decide, by rw [ha]; decide, hsel, ?_⟩
  have hne : v.selection.isEmpty = false := by
    cases hv : v.selection with
    | nil => exact absurd hv hs
    | cons a l => rfl
  have hvalid : (QModelIndex.isValid ⟨0, 4⟩ && QModelIndex.isValid ⟨1, 5⟩) = true := by decide
  simp only [mouseReleaseEvent, hsel, hr, ha, hne, hvalid, if_true, Bool.not_false]

theorem drag_up_msb_first_witness :
    (mouseReleaseEvent (storeEnv sampleStore)
      { model := {}, anchor_index := ⟨1, 5⟩, selection := [⟨0, 4⟩] } ⟨0, 4⟩).2 =
      [Event.addSignal 3 8 true] :=
  (drag_up_msb_first (storeEnv sampleStore)
    { model := {}, anchor_index := ⟨1, 5⟩, selection := [⟨0, 4⟩] }
    rfl rfl rfl (by decide)).2.2.2.2

/-- C8 fails as stated: with the anchor on bit 10 and the pointer on bit 3,
in little-endian numbering of the cells (row 1, column 5 and row 0, column 4)
or in big-endian numbering (row 1, column 2 and row 0, column 3), under
`MsbFirst` and without a resize target, `getSelection` resolves
`little_endian = true`, not false, and with the little-endian numbering
pointer-up emits `addSignal(3, 8, true)`, not `addSignal(3, 8, false)`. -/
theorem drag_up_msb_first_counterexample :
    get_bit_index ⟨1, 5⟩ true = 10 ∧ get_bit_index ⟨0, 4⟩ true = 3 ∧
    get_bit_index ⟨1, 2⟩ false = 10 ∧ get_bit_index ⟨0, 3⟩ false = 3 ∧
    (getSelection (storeEnv sampleStore)
      { model := {}, anchor_index := ⟨1, 5⟩, selection := [⟨0, 4⟩],
        drag_direction := DragDirection.MsbFirst } ⟨0, 4⟩).2.2 = true ∧
    (getSelection (storeEnv sampleStore)
      { model := {}, anchor_index := ⟨1, 2⟩, selection := [⟨0, 3⟩],
        drag_direction := DragDirection.MsbFirst } ⟨0, 3⟩).2.2 = true ∧
    (mouseReleaseEvent (storeEnv sampleStore)
      { model := {}, anchor_index := ⟨1, 5⟩, selection := [⟨0, 4⟩],
        drag_direction := DragDirection.MsbFirst } ⟨0, 4⟩).2 ≠ [Event.addSignal 3 8 false] := by
  decide

theorem highlight_gesture (w : BinaryView) (sig : Option SigPtr) :
    (highlight w sig).1.resize_sig = w.resize_sig ∧
    (highlight w sig).1.anchor_index = w.anchor_index ∧
    (highlight w sig).1.selection = w.selection ∧
    (highlight w sig).1.hovered_sig = sig := by
  unfold highlight
  by_cases h : sig ≠ w.hovered_sig
  · rw [if_pos h]
    exact ⟨rfl, rfl, rfl, rfl⟩
  · rw [if_neg h]
    exact ⟨rfl, rfl, rfl, (not_not.mp h).symm⟩

theorem highlightPosition_gesture (w : BinaryView) (index : QModelIndex) :
    (highlightPosition w index).1.resize_sig = w.resize_sig ∧
    (highlightPosition w index).1.anchor_index = w.anchor_index ∧
    (highlightPosition w index).1.selection = w.selection := by
  unfold highlightPosition
  split
  · exact ⟨(highlight_gesture _ _).1, (highlight_gesture _ _).2.1, (highlight_gesture _ _).2.2.1⟩
  · exact ⟨rfl, rfl, rfl⟩

theorem Resizing_mouseMoveEvent (env : Env) (s : SigPtr) (a : QModelIndex) (w : BinaryView)
    (index : QModelIndex) (dragging : Bool) (h : Resizing s a w) :
    Resizing s a (mouseMoveEvent env w index dragging).1 := by
  obtain ⟨h1, h2, h3⟩ := h
  obtain ⟨g1, g2, g3⟩ := highlightPosition_gesture w index
  unfold mouseMoveEvent
  cases dragging
  · simp only [Bool.false_eq_true, if_false]
    exact ⟨g1.trans h1, g2.trans h2, fun hs => h3 (g3 ▸ hs)⟩
  · simp only [if_true]
    unfold setSelection
    split
    · exact ⟨g1.trans h1, g2.trans h2, fun hs => h3 (g3 ▸ hs)⟩
    · rename_i hvalid
      refine ⟨g1.trans h1, g2.trans h2, fun _ => ?_⟩
      simp only [Bool.or_eq_true, Bool.not_eq_true', not_or, Bool.not_eq_false] at hvalid
      rw [← h2, ← g2]
      exact hvalid.1

theorem Resizing_foldl_moves (env : Env) (s : SigPtr) (a : QModelIndex)
    (moves : List (QModelIndex × Bool)) :
    ∀ w : BinaryView, Resizing s a w →
      Resizing s a (moves.foldl (fun w mv => (mouseMoveEvent env w mv.1 mv.2).1) w) := by
  induction moves with
  | nil => intro w h; exact h
  | cons mv moves ih =>
    intro w h
    rw [List.foldl_cons]
    exact ih _ (Resizing_mouseMoveEvent env s a w mv.1 mv.2 h)

theorem find?_first (f : SigPtr → Bool) (s : SigPtr) (l2 : List SigPtr) (hs : f s = true) :
    ∀ l1 : List SigPtr, (∀ q ∈ l1, f q = false) → (l1 ++ s :: l2).find? f = some s := by
  intro l1
  induction l1 with
  | nil => intro _; simp [List.find?_cons, hs]
  | cons a l ih =>
    intro h
    have ha : f a = false := h a (List.mem_cons_self _ _)
    rw [List.cons_append, List.find?_cons, ha]
    exact ih (fun q hq => h q (List.mem_cons_of_mem _ hq))

theorem getSelection_size_pos (env : Env) (w : BinaryView) (index : QModelIndex) :
    1 ≤ (getSelection env w index).2.1 := by
  simp only [getSelection]
  omega

theorem selectionCells_ne_nil (env : Env) (w : BinaryView) (index : QModelIndex) :
    selectionCells env w index ≠ [] := by
  intro h
  have hpos := getSelection_size_pos env w index
  have h0 : ∀ x : Nat, (getSelection env w index).2.1 ≤ (x : Int) := by
    simpa [selectionCells] using h
  have := h0 0
  omega

theorem selection_mouseMoveEvent (env : Env) (w : BinaryView) (index : QModelIndex)
    (dragging : Bool)
    (h : w.selection ≠ [] ∨
      (dragging = true ∧ index.isValid = true ∧ w.anchor_index.isValid = true)) :
    (mouseMoveEvent env w index dragging).1.selection ≠ [] := by
  obtain ⟨_, g2, g3⟩ := highlightPosition_gesture w index
  unfold mouseMoveEvent
  cases dragging
  · simp only [Bool.false_eq_true, if_false]
    rcases h with h | ⟨h, _⟩
    · rw [g3]; exact h
    · exact absurd h (by simp)
  · simp only [if_true]
    unfold setSelection
    split
    · rename_i hinv
      rcases h with h | ⟨_, h1, h2⟩
      · rw [g3]; exact h
      · rw [g2, h1, h2] at hinv
        exact absurd hinv (by decide)
    · exact selectionCells_ne_nil _ _ _

theorem selection_foldl_moves (env : Env) (s : SigPtr) (a : QModelIndex)
    (ha : a.isValid = true) (moves : List (QModelIndex × Bool)) :
    ∀ w : BinaryView, Resizing s a w →
      (w.selection ≠ [] ∨ ∃ mv ∈ moves, mv.2 = true ∧ mv.1.isValid = true) →
      (moves.foldl (fun w mv => (mouseMoveEvent env w mv.1 mv.2).1) w).selection ≠ [] := by
  induction moves with
  | nil =>
    intro w _ h
    rcases h with h | ⟨mv, hmv, _⟩
    · exact h
    · exact absurd hmv (List.not_mem_nil _)
  | cons m moves ih =>
    intro w hw h
    rw [List.foldl_cons]
    apply ih _ (Resizing_mouseMoveEvent env s a w m.1 m.2 hw)
    rcases h with h | ⟨mv, hmv, h1, h2⟩
    · exact Or.inl (selection_mouseMoveEvent env w m.1 m.2 (Or.inl h))
    · rcases List.mem_cons.mp hmv with heq | hmem
      · subst heq
        exact Or.inl (selection_mouseMoveEvent env w mv.1 mv.2
          (Or.inr ⟨h1, h2, by rw [hw.2.1]; exact ha⟩))
      · exact Or.inr ⟨mv, hmem, h1, h2⟩

/-- C9, as the code has it: when pointer-down lands, with no selection, on a
valid cell outside the hex column, and `s` is the first signal in the list of
that cell whose lsb or msb is the little-endian bit number of the cell, the
gesture becomes a resize of `s`, also when a later signal of the list has a
boundary on the same bit, with the anchor moved to the cell of the opposite
boundary bit of `s`.  After any pointer moves, a pointer-up on a valid cell
with a non-empty selection emits exactly `resizeSignal` for `s`, with start
bit `min c a` and size `max c a - min c a + 1`, where `a` and `c` are the bit
numbers of the anchor and of the released cell in the endianness of `s`; a
move with a button held over a valid cell makes the selection non-empty when
the anchor is valid; and no pointer-up after the press emits `addSignal`. -/
theorem press_on_boundary_resizes_first (env : Env) (v : BinaryView) (index : QModelIndex)
    (s : SigPtr) (l1 l2 : List SigPtr) (moves : List (QModelIndex × Bool))
    (release_index : QModelIndex)
    (hidle : v.selection = []) (hvalid : index.isValid = true) (hcol : index.column ≠ 8)
    (hsplit : sigsUnder v.model index = l1 ++ s :: l2)
    (hbefore : ∀ q ∈ l1, ¬ BoundaryAt env (get_bit_index index true) q)
    (hb : BoundaryAt env (get_bit_index index true) s) :
    (mousePressEvent env v index).resize_sig = some s ∧
    (mousePressEvent env v index).anchor_index =
      bitIndex (oppositeBit env (get_bit_index index true) s) true ∧
    (pressThenMove env v index moves).resize_sig = some s ∧
    (pressThenMove env v index moves).anchor_index =
      bitIndex (oppositeBit env (get_bit_index index true) s) true ∧
    (release_index.isValid = true → (pressThenMove env v index moves).selection ≠ [] →
      (mouseReleaseEvent env (pressThenMove env v index moves) release_index).2 =
        [Event.resizeSignal s
          (min (get_bit_index (currentCell release_index) (env.sig s).is_little_endian)
            (get_bit_index (bitIndex (oppositeBit env (get_bit_index index true) s) true)
              (env.sig s).is_little_endian))
          (max (get_bit_index (currentCell release_index) (env.sig s).is_little_endian)
              (get_bit_index (bitIndex (oppositeBit env (get_bit_index index true) s) true)
                (env.sig s).is_little_endian) -
            min (get_bit_index (currentCell release_index) (env.sig s).is_little_endian)
              (get_bit_index (bitIndex (oppositeBit env (get_bit_index index true) s) true)
                (env.sig s).is_little_endian) + 1)]) ∧
    ((bitIndex (oppositeBit env (get_bit_index index true) s) true).isValid = true →
      (∃ mv ∈ moves, mv.2 = true ∧ mv.1.isValid = true) →
      (pressThenMove env v index moves).selection ≠ []) ∧
    (∀ (r : QModelIndex) (start_bit size : Int) (le : Bool),
      Event.addSignal start_bit size le ∉
        (mouseReleaseEvent env (pressThenMove env v index moves) r).2) := by
  have hfind : (((internalPointer v.model index).getD default).sigs).find?
      (fun s => decide (get_bit_index index true = (env.sig s).lsb) ||
        decide (get_bit_index index true = (env.sig s).msb)) = some s := by
    have hsplit' : ((internalPointer v.model index).getD default).sigs = l1 ++ s :: l2 := hsplit
    rw [hsplit']
    apply find?_first
    · simpa [BoundaryAt] using hb
    · intro q hq
      have := hbefore q hq
      simp only [BoundaryAt, not_or] at this
      simp [this.1, this.2]
  have hguard : (index.isValid && decide (index.column ≠ 8)) = true := by
    simp [hvalid, hcol]
  have hpress : mousePressEvent env v index =
      { v with
        anchor_index := bitIndex (oppositeBit env (get_bit_index index true) s) true,
        resize_sig := some s } := by
    simp only [mousePressEvent, hguard, if_true, hfind, oppositeBit]
  have hinv : Resizing s (bitIndex (oppositeBit env (get_bit_index index true) s) true)
      (pressThenMove env v index moves) := by
    unfold pressThenMove
    apply Resizing_foldl_moves
    rw [hpress]
    exact ⟨rfl, rfl, fun h => absurd hidle h⟩
  obtain ⟨h1, h2, h3⟩ := hinv
  refine ⟨by rw [hpress], by rw [hpress], h1, h2, ?_, ?_, ?_⟩
  · intro hrel hsel
    have hne : (pressThenMove env v index moves).selection.isEmpty = false := by
      cases hv : (pressThenMove env v index moves).selection with
      | nil => exact absurd hv hsel
      | cons a l => rfl
    have hanchor : (bitIndex (oppositeBit env (get_bit_index index true) s) true).isValid =
        true := h3 hsel
    simp only [mouseReleaseEvent, getSelection, hrel, h2, hanchor, hne, h1, Bool.and_self,
      if_true, Bool.not_false]
  · intro ha hdrag
    unfold pressThenMove
    apply selection_foldl_moves env s _ ha
    · rw [hpress]
      exact ⟨rfl, rfl, fun h => absurd hidle h⟩
    · exact Or.inr hdrag
  · intro r start_bit size le hmem
    simp only [mouseReleaseEvent, h1] at hmem
    split at hmem
    · split at hmem
      · simp at hmem
      · split at hmem
        · split at hmem
          · simp at hmem
          · simp at hmem
        · simp at hmem
    · simp at hmem

theorem press_on_boundary_resizes_first_witness :
    (mousePressEvent (storeEnv sampleStore) sampleView ⟨0, 4⟩).resize_sig = some 1 ∧
    (mousePressEvent (storeEnv sampleStore) sampleView ⟨0, 4⟩).anchor_index = ⟨0, 7⟩ ∧
    (pressThenMove (storeEnv sampleStore) sampleView ⟨0, 4⟩ [(⟨0, 2⟩, true)]).selection ≠ [] ∧
    (mouseReleaseEvent (storeEnv sampleStore)
      (pressThenMove (storeEnv sampleStore) sampleView ⟨0, 4⟩ [(⟨0, 2⟩, true)]) ⟨0, 2⟩).2 =
      [Event.resizeSignal 1 0 6] :=
  have h := press_on_boundary_resizes_first (storeEnv sampleStore) sampleView ⟨0, 4⟩ 1 [0] []
    [(⟨0, 2⟩, true)] ⟨0, 2⟩ rfl (by decide) (by decide) (by decide)
    (by
      intro q hq
      have hq0 : q = 0 := by simpa using hq
      subst hq0
      decide)
    (by decide)
  ⟨h.1, h.2.1, h.2.2.2.2.2.1 (by decide) ⟨(⟨0, 2⟩, true), by simp, rfl, by decide⟩,
    h.2.2.2.2.1 (by decide)
      (h.2.2.2.2.2.1 (by decide) ⟨(⟨0, 2⟩, true), by simp, rfl, by decide⟩)⟩

/-- C9 fails as stated: in the grid rebuilt for the two little-endian signals
of `sharedStore`, the cell of bit 0 (row 0, column 7) lists the signal of 8
bits before the signal of 4 bits, and bit 0 is the lsb of both.  A
pointer-down on that cell makes the gesture a resize of the signal of 8 bits,
not of the signal of 4 bits, and after a drag to column 2 pointer-up emits
`resizeSignal` for the signal of 8 bits. -/
theorem press_on_shared_boundary_counterexample :
    sigsUnder sharedView.model ⟨0, 7⟩ = [0, 1] ∧
    get_bit_index ⟨0, 7⟩ true = ((storeEnv sharedStore).sig 1).lsb ∧
    (mousePressEvent (storeEnv sharedStore) sharedView ⟨0, 7⟩).resize_sig = some 0 ∧
    (mousePressEvent (storeEnv sharedStore) sharedView ⟨0, 7⟩).resize_sig ≠ some 1 ∧
    (mouseReleaseEvent (storeEnv sharedStore)
      (pressThenMove (storeEnv sharedStore) sharedView ⟨0, 7⟩ [(⟨0, 2⟩, true)]) ⟨0, 2⟩).2 =
      [Event.resizeSignal 0 5 3] := by
  decide

theorem cellAt_of_internalPointer (m : BinaryViewModel) (index : QModelIndex) (item : Item)
    (h : internalPointer m index = some item) :
    index.isValid = true ∧
      cellAt m.items (index.row.toNat * column_count + index.column.toNat) = item := by
  unfold internalPointer at h
  by_cases hv : index.isValid = true
  · rw [if_pos hv] at h
    refine ⟨hv, ?_⟩
    unfold cellAt
    rw [List.getD_eq_getElem?_getD, h]
    rfl
  · rw [if_neg hv] at h
    exact absurd h (by simp)

theorem getLast_le_of_sorted (env : Env) (l : List SigPtr) (s : SigPtr)
    (hs : l.Pairwise (fun a b => (env.sig b).size ≤ (env.sig a).size))
    (hl : l.getLast? = some s) : ∀ q ∈ l, (env.sig s).size ≤ (env.sig q).size := by
  obtain ⟨ys, hys⟩ := List.getLast?_eq_some_iff.mp hl
  subst hys
  intro q hq
  rw [List.pairwise_append] at hs
  rcases List.mem_append.mp hq with h | h
  · exact hs.2.2 q h s (List.mem_singleton_self s)
  · rw [List.mem_singleton.mp h]

/-- C10, as the code has it: on a rebuilt grid, the topmost signal of a cell
with a non-empty signal list, which is the one reported by `signalClicked` on
a pointer-up over a valid cell without selection when the anchor is on the
cell, and the one the hovered-signal reference is set to when the pointer is
over the cell, is the back of the sorted signal list of the cell, that is, a
smallest signal listed in the cell. -/
theorem topmost_is_back_of_list (env : Env) (S : StdSort) (msg : Msg) (last : CanData)
    (v : BinaryView) (index : QModelIndex) (item : Item)
    (hv : v.model = refresh env S (some msg) last)
    (hitem : internalPointer v.model index = some item) (hne : item.sigs ≠ []) :
    ∃ s, item.sigs.getLast? = some s ∧
      (∀ q ∈ item.sigs, (env.sig s).size ≤ (env.sig q).size) ∧
      (∀ release_index : QModelIndex, release_index.isValid = true →
        v.anchor_index = index → v.selection = [] →
        (mouseReleaseEvent env v release_index).2 = [Event.signalClicked s]) ∧
      (highlightPosition v index).1.hovered_sig = some s := by
  obtain ⟨hvalid, hcell⟩ := cellAt_of_internalPointer _ _ _ hitem
  have hsorted : item.sigs.Pairwise (fun a b => (env.sig b).size ≤ (env.sig a).size) := by
    rw [← hcell, hv, sigs_refresh_some]
    exact CellsSorted_laidOut env S msg _
  refine ⟨item.sigs.getLast hne, List.getLast?_eq_getLast _ hne, ?_, ?_, ?_⟩
  · exact getLast_le_of_sorted env _ _ hsorted (List.getLast?_eq_getLast _ hne)
  · intro release_index hrel hanchor hsel
    simp only [mouseReleaseEvent, hrel, hanchor, hvalid, hsel, hitem,
      List.getLast?_eq_getLast _ hne, Bool.and_self, if_true, List.isEmpty_nil,
      Bool.not_true, Bool.false_eq_true, if_false]
  · unfold highlightPosition
    simp only [hitem]
    rw [(highlight_gesture _ _).2.2.2, List.getLast?_eq_getLast _ hne]

theorem topmost_is_back_of_list_witness :
    ∃ s, ([0, 1] : List SigPtr).getLast? = some s ∧
      (∀ q ∈ ([0, 1] : List SigPtr),
        ((storeEnv sampleStore).sig s).size ≤ ((storeEnv sampleStore).sig q).size) ∧
      (∀ release_index : QModelIndex, release_index.isValid = true →
        clickView.anchor_index = ⟨0, 7⟩ → clickView.selection = [] →
        (mouseReleaseEvent (storeEnv sampleStore) clickView release_index).2 =
          [Event.signalClicked s]) ∧
      (highlightPosition clickView ⟨0, 7⟩).1.hovered_sig = some s :=
  topmost_is_back_of_list (storeEnv sampleStore) insertionStdSort sampleMsg twoBytes clickView
    ⟨0, 7⟩ (cellAt clickView.model.items 7) rfl (by decide) (by decide)

/-- C10 fails as stated: in the grid rebuilt for the two signals of
`sampleStore`, the cell of row 0 and column 7 lists the signal of 16 bits at
the front and the signal of 4 bits at the back; a pointer-up without
selection over the anchor on that cell reports the signal of 4 bits, and the
hovered signal over the cell is the signal of 4 bits, not the front of the
list, the largest. -/
theorem topmost_is_front_counterexample :
    sigsUnder clickView.model ⟨0, 7⟩ = [0, 1] ∧
    ((storeEnv sampleStore).sig 0).size = 16 ∧ ((storeEnv sampleStore).sig 1).size = 4 ∧
    (mouseReleaseEvent (storeEnv sampleStore) clickView ⟨0, 7⟩).2 = [Event.signalClicked 1] ∧
    (highlightPosition clickView ⟨0, 7⟩).1.hovered_sig = some 1 ∧
    (sigsUnder clickView.model ⟨0, 7⟩).head? = some 0 := by
  decide

/-! ## Pointer-up -/

/-- C11: `mouseReleaseEvent` emits no edit or click event (no `addSignal`,
`resizeSignal` or `signalClicked`) when the release position is outside any
valid cell or the anchor is invalid; and after every pointer-up, whatever was
emitted, the selection is cleared, the anchor is the invalid index and the
resize target is null. -/
theorem release_clears_gesture (env : Env) (v : BinaryView) (release_index : QModelIndex) :
    ((release_index.isValid = false ∨ v.anchor_index.isValid = false) →
      (mouseReleaseEvent env v release_index).2 = []) ∧
    (mouseReleaseEvent env v release_index).1.selection = [] ∧
    (mouseReleaseEvent env v release_index).1.anchor_index = QModelIndex.none ∧
    (mouseReleaseEvent env v release_index).1.anchor_index.isValid = false ∧
    (mouseReleaseEvent env v release_index).1.resize_sig = none := by
  refine ⟨?_, rfl, rfl, rfl, rfl⟩
  intro h
  have hguard : (release_index.isValid && v.anchor_index.isValid) = false := by
    rcases h with h | h <;> simp [h]
  simp only [mouseReleaseEvent, hguard, Bool.false_eq_true, if_false]

theorem release_clears_gesture_witness :
    (mouseReleaseEvent (storeEnv sampleStore)
      { clickView with selection := [⟨0, 7⟩], resize_sig := some 1 } QModelIndex.none).2 = [] ∧
    (mouseReleaseEvent (storeEnv sampleStore)
      { clickView with selection := [⟨0, 7⟩], resize_sig := some 1 }
      QModelIndex.none).1.selection = [] :=
  ⟨(release_clears_gesture (storeEnv sampleStore)
      { clickView with selection := [⟨0, 7⟩], resize_sig := some 1 } QModelIndex.none).1
      (Or.inl (by decide)),
    (release_clears_gesture (storeEnv sampleStore)
      { clickView with selection := [⟨0, 7⟩], resize_sig := some 1 } QModelIndex.none).2.1⟩

/-! ## Two adjacent signals in one byte -/

theorem eq_singleton_of_count (l : List SigPtr) (a : SigPtr)
    (h : ∀ q, l.count q = ([a] : List SigPtr).count q) : l = [a] :=
  List.perm_singleton.mp (List.perm_iff_count.mpr h)

theorem eq_nil_of_count (l : List SigPtr) (h : ∀ q, l.count q = 0) : l = [] :=
  List.eq_nil_iff_forall_not_mem.mpr (fun q hq =>
    absurd (h q) (Nat.pos_iff_ne_zero.mp (List.count_pos_iff.mpr hq)))

theorem sigs_laidOut_nibble (S : StdSort) (k : Nat) :
    (cellAt (laidOut (storeEnv nibbleStore) S nibbleMsg) k).sigs =
      if k < 4 then [1] else if k < 8 then [0] else [] := by
  have hcount : ∀ q : SigPtr, q ≠ 0 → q ≠ 1 → List.count q nibbleMsg.getSignals = 0 := by
    intro q h0 h1
    apply List.count_eq_zero.mpr
    intro hq
    have : q = 0 ∨ q = 1 := by simpa [nibbleMsg] using hq
    rcases this with h | h
    · exact h0 h
    · exact h1 h
  have hc0 : List.count 0 nibbleMsg.getSignals = 1 := by decide
  have hc1 : List.count 1 nibbleMsg.getSignals = 1 := by decide
  have hA : ∀ k', k' < 9 → laidCount (storeEnv nibbleStore) (nibbleMsg.size * column_count) 0 k' =
      if 4 ≤ k' ∧ k' < 8 then 1 else 0 := by decide
  have hB : ∀ k', k' < 9 → laidCount (storeEnv nibbleStore) (nibbleMsg.size * column_count) 1 k' =
      if k' < 4 then 1 else 0 := by decide
  by_cases hk : k < 9
  · have key : ∀ q, (cellAt (laidOut (storeEnv nibbleStore) S nibbleMsg) k).sigs.count q =
        (if k < 4 then [1] else if k < 8 then [0] else ([] : List SigPtr)).count q := by
      intro q
      rw [count_sigs_laidOut]
      by_cases h0 : q = 0
      · subst h0
        rw [hA k hk, hc0]
        split_ifs <;> first | rfl | omega
      · by_cases h1 : q = 1
        · subst h1
          rw [hB k hk, hc1]
          split_ifs <;> rfl
        · rw [hcount q h0 h1, Nat.zero_mul]
          have hq0 : ¬ (0 : SigPtr) = q := fun h => h0 h.symm
          have hq1 : ¬ (1 : SigPtr) = q := fun h => h1 h.symm
          split_ifs
          · simp [List.count_cons, hq1]
          · simp [List.count_cons, hq0]
          · rfl
    by_cases h4 : k < 4
    · simp only [h4, if_true] at key ⊢
      exact eq_singleton_of_count _ _ key
    · by_cases h8 : k < 8
      · simp only [h4, h8, if_true, if_false] at key ⊢
        exact eq_singleton_of_count _ _ key
      · simp only [h4, h8, if_false] at key ⊢
        exact eq_nil_of_count _ key
  · rw [cellAt_of_length_le _ _ (by rw [length_laidOut]; exact Nat.le_of_not_lt hk)]
    have h4 : ¬ k < 4 := by omega
    have h8 : ¬ k < 8 := by omega
    simp only [h4, h8, if_false]
    rfl

/-- C12: for a message of size 1 byte with signal A = {start bit 0, size 4,
little-endian} at address 0 and signal B = {start bit 4, size 4,
little-endian} at address 1, after `refresh`, for any last payload, the
cells of bits 0 to 3 (columns 7 down to 4 of row 0) list only A, with the lsb
flag set on the cell of bit 0 and the msb flag set on the cell of bit 3, the
cells of bits 4 to 7 (columns 3 down to 0) list only B, no cell lists two
signals, and `getOverlappingSignals` returns the empty set. -/
theorem two_nibbles_layout (S : StdSort) (last : CanData) (v : BinaryView)
    (hv : v.model = refresh (storeEnv nibbleStore) S (some nibbleMsg) last) :
    (∀ b : Nat, b < 8 → get_bit_index ⟨0, ((7 - b : Nat) : Int)⟩ true = (b : Int)) ∧
    (∀ b : Nat, b < 4 → (cellAt v.model.items (7 - b)).sigs = [0]) ∧
    (cellAt v.model.items (7 - 0)).is_lsb = true ∧
    (cellAt v.model.items (7 - 3)).is_msb = true ∧
    (∀ b : Nat, 4 ≤ b → b < 8 → (cellAt v.model.items (7 - b)).sigs = [1]) ∧
    (∀ k, (cellAt v.model.items k).sigs.length ≤ 1) ∧
    getOverlappingSignals v = ∅ := by
  have hsigs : ∀ k, (cellAt v.model.items k).sigs =
      if k < 4 then [1] else if k < 8 then [0] else [] := by
    intro k
    rw [hv, sigs_refresh_some, sigs_laidOut_nibble]
  have hlen : ∀ k, (cellAt v.model.items k).sigs.length ≤ 1 := by
    intro k
    rw [hsigs]
    split_ifs <;> simp
  refine ⟨by decide, ?_, ?_, ?_, ?_, hlen, ?_⟩
  · intro b hb
    rw [hsigs]
    have h1 : ¬ 7 - b < 4 := by omega
    have h2 : 7 - b < 8 := by omega
    simp only [h1, h2, if_true, if_false]
  · have h := startFlag_laidOut (storeEnv nibbleStore) S nibbleMsg 0 (by decide) (by decide)
      (by decide)
    rw [hv, (flags_refresh_some _ _ _ _ _).2]
    exact h
  · have h := endFlag_laidOut (storeEnv nibbleStore) S nibbleMsg 0 (by decide)
      ⟨by decide, by decide, fun i hi1 hi2 => by
        have hi1' : (0 : Int) ≤ i := hi1
        have hi2' : i ≤ 3 := hi2
        have hi : i = 0 ∨ i = 1 ∨ i = 2 ∨ i = 3 := by omega
        rcases hi with h | h | h | h <;> subst h <;> decide⟩
    rw [hv, (flags_refresh_some _ _ _ _ _).1]
    exact h
  · intro b hb1 hb2
    rw [hsigs]
    have h1 : 7 - b < 4 := by omega
    simp only [h1, if_true]
  · apply Finset.eq_empty_of_forall_not_mem
    intro p hp
    obtain ⟨k, _, hk⟩ := (mem_getOverlappingSignals v p).mp hp
    have := hlen k
    omega

theorem two_nibbles_layout_witness :
    getOverlappingSignals
      { model := refresh (storeEnv nibbleStore) insertionStdSort (some nibbleMsg) twoBytes } = ∅ ∧
    (cellAt (refresh (storeEnv nibbleStore) insertionStdSort (some nibbleMsg)
      twoBytes).items 7).sigs = [0] :=
  ⟨(two_nibbles_layout insertionStdSort twoBytes
      { model := refresh (storeEnv nibbleStore) insertionStdSort (some nibbleMsg) twoBytes }
      rfl).2.2.2.2.2.2,
    (two_nibbles_layout insertionStdSort twoBytes
      { model := refresh (storeEnv nibbleStore) insertionStdSort (some nibbleMsg) twoBytes }
      rfl).2.1 0 (by decide)⟩

/-! ## Signals of one bit -/

theorem storeEnv_spansSize (store : List Signal) : SpansSize (storeEnv store) := by
  intro s
  rfl

/-- C13: for every signal of the definition with `size == 1`, of either
endianness, whose bit lies inside the grid of the declared message size, the
first and the last position of its range are identical, the signal is listed
in exactly one cell, the cell of that position, and after `refresh` that cell
has both its msb and its lsb flag set.  The range returned by
`getSignalRange` is taken to span `size` positions. -/
theorem single_bit_signal (env : Env) (S : StdSort) (msg : Msg) (last : CanData) (p : SigPtr)
    (hp : p ∈ msg.getSignals) (hspan : SpansSize env) (hsize : (env.sig p).size = 1)
    (hin : InBounds (msg.size * column_count)
      (cellIndex env (env.sig p) (env.getSignalRange (env.sig p)).1)) :
    (env.getSignalRange (env.sig p)).2 = (env.getSignalRange (env.sig p)).1 ∧
    (∀ k : Nat, p ∈ (cellAt (refresh env S (some msg) last).items k).sigs ↔
      (k : Int) = cellIndex env (env.sig p) (env.getSignalRange (env.sig p)).1) ∧
    (cellAt (refresh env S (some msg) last).items
      (cellIndex env (env.sig p) (env.getSignalRange (env.sig p)).1).toNat).is_msb = true ∧
    (cellAt (refresh env S (some msg) last).items
      (cellIndex env (env.sig p) (env.getSignalRange (env.sig p)).1).toNat).is_lsb = true := by
  have hrange : (env.getSignalRange (env.sig p)).2 = (env.getSignalRange (env.sig p)).1 := by
    rw [hspan, hsize]; omega
  have hreach : Reaches env (msg.size * column_count) (env.sig p)
      (env.getSignalRange (env.sig p)).1 := by
    refine ⟨le_refl _, by rw [hrange], ?_⟩
    intro i hi1 hi2
    have : i = (env.getSignalRange (env.sig p)).1 := by omega
    rw [this]; exact hin
  have hstart := startFlag_laidOut env S msg p hp (by rw [hrange]) hin
  have hend := endFlag_laidOut env S msg p hp (by rw [hrange]; exact hreach)
  rw [hrange] at hend
  rw [← startFlag_refresh env S msg last] at hstart
  rw [← endFlag_refresh env S msg last] at hend
  refine ⟨hrange, ?_, ?_, ?_⟩
  · intro k
    rw [sigs_refresh_some, mem_sigs_laidOut]
    constructor
    · rintro ⟨_, j, ⟨hj1, hj2, _⟩, hj4⟩
      have : j = (env.getSignalRange (env.sig p)).1 := by omega
      rw [← this, hj4]
    · intro hk
      exact ⟨hp, _, hreach, hk.symm⟩
  · unfold startFlag at hstart
    unfold endFlag at hend
    cases hle : (env.sig p).is_little_endian
    · rw [hle] at hstart; exact hstart
    · rw [hle] at hend; exact hend
  · unfold startFlag at hstart
    unfold endFlag at hend
    cases hle : (env.sig p).is_little_endian
    · rw [hle] at hend; exact hend
    · rw [hle] at hstart; exact hstart

theorem single_bit_signal_witness :
    ((cellAt (refresh (storeEnv bitStore) insertionStdSort (some ⟨2, [0, 1]⟩) twoBytes).items
        14).is_msb = true ∧
      (cellAt (refresh (storeEnv bitStore) insertionStdSort (some ⟨2, [0, 1]⟩) twoBytes).items
        14).is_lsb = true) ∧
    ((cellAt (refresh (storeEnv bitStore) insertionStdSort (some ⟨2, [0, 1]⟩) twoBytes).items
        2).is_msb = true ∧
      (cellAt (refresh (storeEnv bitStore) insertionStdSort (some ⟨2, [0, 1]⟩) twoBytes).items
        2).is_lsb = true) :=
  ⟨(single_bit_signal (storeEnv bitStore) insertionStdSort ⟨2, [0, 1]⟩ twoBytes 0 (by decide)
      (storeEnv_spansSize bitStore) (by decide) (by decide)).2.2,
    (single_bit_signal (storeEnv bitStore) insertionStdSort ⟨2, [0, 1]⟩ twoBytes 1 (by decide)
      (storeEnv_spansSize bitStore) (by decide) (by decide)).2.2⟩

end Cabana
